import Mathlib

/-!
Verification of the chalk expression language (tokenizer, recursive-descent
parser, tree-walking evaluator, and the prime-factorization based gcd/lcm)
against its specification.

Modelling conventions, used consistently below:

* Rust machine integers (`i32`, `u32`, `usize`) are modelled as `Int`/`Nat`;
  wrapping casts are made explicit (`wrap32`) where the source performs one.
* Rust `f32` values are modelled as exact fractions (`QF`, a numerator
  and denominator over `Int`, compared by cross-multiplication).  Every
  concrete input exercised below stays on values where `f32` arithmetic is
  exact (small integers under `+`, `-`, and integral powers), so the
  idealization is faithful on those inputs.  The transcendental `f32`
  functions (`sin`, `cos`, ..., `ln`) are not modelled (placeholder
  constant); no property below depends on them.
* Rust functions that can panic (slice indexing out of bounds, integer
  parse `unwrap`, division by zero) are modelled with an explicit `panic`
  outcome, distinct from ordinary error returns.
* Unbounded loops / general recursion (the evaluator's late-bound variable
  lookup, the prime machine's search loop) are modelled with an explicit
  fuel parameter; `nofuel` marks fuel exhaustion.  Where a claim needs
  totality, a fuel-sufficiency lemma is proved.
* `HashMap<char, Expr>` is modelled as an association list with
  insert-or-update semantics; `HashMap<usize, Vec<usize>>` grouping in
  gcd/lcm is modelled as an association list in first-insertion order
  (the Rust iteration order is arbitrary, but both results are products
  of commuting factors, so any order yields the same value).
-/

namespace Chalk

/-- Outcome of running a modelled Rust computation: `panic` models a Rust
panic, `nofuel` is an artifact of the fuel-based embedding (never reached
with sufficient fuel), `err` is an ordinary error return, `ok` a value. -/
inductive MRes (ε α : Type) where
  | panic : MRes ε α
  | nofuel : MRes ε α
  | err (e : ε) : MRes ε α
  | ok (a : α) : MRes ε α
deriving DecidableEq, Repr

namespace MRes

/-- Sequencing of modelled computations: panics, fuel exhaustion and errors
propagate, mirroring the Rust question-mark operator. -/
def bind {ε α β : Type} : MRes ε α → (α → MRes ε β) → MRes ε β
  | .panic, _ => .panic
  | .nofuel, _ => .nofuel
  | .err e, _ => .err e
  | .ok a, f => f a

instance {ε : Type} : Monad (MRes ε) where
  pure := MRes.ok
  bind := MRes.bind

end MRes

/-- Exact fractions idealizing `f32` values: a numerator and a (nonzero,
by construction) denominator, not normalized, compared by
cross-multiplication.  All operations are plain integer arithmetic, so
concrete evaluator runs reduce inside the kernel. -/
structure QF where
  num : Int
  den : Int
deriving DecidableEq, Repr

namespace QF

/-- The exact value of an integer (`i as f32`, exact for the magnitudes
appearing here). -/
def ofInt (i : Int) : QF := ⟨i, 1⟩

/-- f32 addition, exact. -/
def add (a b : QF) : QF := ⟨a.num * b.den + b.num * a.den, a.den * b.den⟩

/-- f32 subtraction, exact. -/
def sub (a b : QF) : QF := ⟨a.num * b.den - b.num * a.den, a.den * b.den⟩

/-- f32 multiplication, exact. -/
def mul (a b : QF) : QF := ⟨a.num * b.num, a.den * b.den⟩

/-- f32 division, exact; division by zero yields a degenerate fraction
(denominator 0, playing the role of the f32 infinity; no property below
evaluates it). -/
def div (a b : QF) : QF := ⟨a.num * b.den, a.den * b.num⟩

/-- f32 negation. -/
def neg (a : QF) : QF := ⟨-a.num, a.den⟩

/-- `f32::abs`. -/
def qabs (a : QF) : QF := ⟨|a.num|, |a.den|⟩

/-- f32 equality: exact equality of the fractions (cross-multiplication). -/
def qeq (a b : QF) : Bool := a.num * b.den = b.num * a.den

/-- f32 strict order, via cross-multiplication corrected by the sign of
the product of denominators. -/
def qlt (a b : QF) : Bool :=
  a.num * b.den * (a.den * b.den).sign < b.num * a.den * (a.den * b.den).sign

/-- f32 non-strict order. -/
def qle (a b : QF) : Bool :=
  a.num * b.den * (a.den * b.den).sign ≤ b.num * a.den * (a.den * b.den).sign

/-- Whether the value is integral (`f.round() == f` on a finite f32). -/
def integral (a : QF) : Bool := a.den ∣ a.num

/-- The integer value of an integral fraction (exact division). -/
def intVal (a : QF) : Int := a.num / a.den

/-- Raise a fraction to an integer power. -/
def zpowQ (b : QF) (k : Int) : QF :=
  if 0 ≤ k then ⟨b.num ^ k.toNat, b.den ^ k.toNat⟩
  else ⟨b.den ^ (-k).toNat, b.num ^ (-k).toNat⟩

/-- The floor of a fraction as an integer (`f32::floor` then `as i32`). -/
def qfloor (a : QF) : Int := Int.fdiv (a.num * a.den.sign) (a.den.natAbs : Int)

/-- The ceiling of a fraction as an integer (`f32::ceil` then `as i32`). -/
def qceil (a : QF) : Int := -(qfloor (neg a))

end QF

/-! ## Tokenizer (src/chalk-core/src/tokenizer.rs) -/

/-- A token, mirroring the tokenizer's `Token` enumeration.  `i32` literals
are carried as `Int` (the tokenizer only produces values that fit in `i32`,
panicking otherwise), `f32` literals as exact fractions. -/
inductive Token where
  | Integer (i : Int)
  | Variable (c : Char)
  | Ident (s : List Char)
  | Real (q : QF)
  | Bool (b : Bool)
  | Multiply
  | Divide
  | Plus
  | Minus
  | Caret
  | OpenParen
  | CloseParen
  | Exclamation
  | Bar
  | Comma
  | Assign
  | Eq
  | NEq
  | Gt
  | Gte
  | Lt
  | Lte
  | And
  | Or
  | EOF
deriving DecidableEq, Repr

/-- An invalid character was read while tokenizing (`InvalidToken`). -/
structure InvalidToken where
deriving DecidableEq, Repr

/-- Rust `char::is_numeric`, restricted to the ASCII digits.  Non-ASCII
Unicode numeric characters do not occur in any input considered here. -/
def isNumericCh (c : Char) : Bool := c.isDigit

/-- Rust `char::is_alphabetic` (Unicode `Alphabetic`), restricted to the
Basic Latin and Latin-1 blocks, which is exact for every input considered
here: ASCII letters plus the Latin-1 letters (the Latin-1 supplement minus
the multiplication and division signs, plus the three letterlike signs). -/
def isAlphabeticCh (c : Char) : Bool :=
  c.isAlpha || c.val == 0xAA || c.val == 0xB5 || c.val == 0xBA ||
    (0xC0 ≤ c.val && c.val ≤ 0xFF && c.val ≠ 0xD7 && c.val ≠ 0xF7)

/-- The inner loop of the number branch: consume further numeric characters,
allowing a single decimal point (flag `dot`); returns the consumed run and
the remaining characters. -/
def numRun : List Char → Bool → List Char × List Char
  | [], _ => ([], [])
  | c :: rest, dot =>
    if isNumericCh c then
      let (t, r) := numRun rest dot
      (c :: t, r)
    else if c = '.' ∧ dot = false then
      let (t, r) := numRun rest true
      ('.' :: t, r)
    else ([], c :: rest)

/-- The inner loop of the word branch: consume further alphabetic
characters, tracking the enumeration index of the last one consumed
(`end` in the source); returns that index and the remaining characters. -/
def wordRun : Nat → List Char → Nat × List Char
  | endIdx, [] => (endIdx, [])
  | endIdx, c :: rest =>
    if isAlphabeticCh c then wordRun (endIdx + 1) rest else (endIdx, c :: rest)

/-- Drop `b` bytes (UTF-8) from the front of a character list; `none` when
`b` is not at a character boundary, which in Rust is a slicing panic. -/
def byteDrop : List Char → Nat → Option (List Char)
  | l, 0 => some l
  | [], _ + 1 => none
  | c :: rest, b + 1 =>
    if c.utf8Size ≤ b + 1 then byteDrop rest (b + 1 - c.utf8Size) else none

/-- Take `b` bytes (UTF-8) from the front of a character list; `none` when
`b` overruns the list or is not at a character boundary (a slicing panic). -/
def byteTake : List Char → Nat → Option (List Char)
  | _, 0 => some []
  | [], _ + 1 => none
  | c :: rest, b + 1 =>
    if c.utf8Size ≤ b + 1 then (byteTake rest (b + 1 - c.utf8Size)).map (c :: ·)
    else none

/-- Rust string slice `&s[lo..=hi]` with byte indices `lo`, `hi`: `none`
models the panic on a non-boundary or out-of-range index. -/
def rustSliceIncl (s : List Char) (lo hi : Nat) : Option (List Char) :=
  (byteDrop s lo).bind fun r => byteTake r (hi + 1 - lo)

/-- Numeric value of a run of ASCII digits. -/
def natOfDigits (l : List Char) : Nat :=
  l.foldl (fun a c => 10 * a + (c.toNat - '0'.toNat)) 0

/-- Rust `str::parse::<i32>` on a run of digits: fails (and the source
promptly unwraps, i.e. panics) when the value overflows `i32`. -/
def parseI32 (l : List Char) : Option Int :=
  let n := natOfDigits l
  if n ≤ 2147483647 then some (n : Int) else none

/-- Rust `str::parse::<f32>` on a digit run with one decimal point,
idealized to the exact rational value (no `f32` rounding; real literals are
not evaluated in any property below). -/
def parseF32 (l : List Char) : QF :=
  let ip := l.takeWhile (· ≠ '.')
  let fp := (l.dropWhile (· ≠ '.')).drop 1
  ⟨(natOfDigits ip : Int) * 10 ^ fp.length + (natOfDigits fp : Int),
    (10 : Int) ^ fp.length⟩

/-- Main tokenizer loop over the remaining characters, carrying the
enumeration index `idx` of the next character and the tokens emitted so
far; `orig` is the whole input, needed because the word branch slices the
original string. -/
def tokA (orig : List Char) : Nat → List Char → Nat → List Token →
    MRes InvalidToken (List Token)
  | 0, _, _, _ => .nofuel
  | _ + 1, [], _, acc => .ok (acc ++ [.EOF])
  | f + 1, c :: rest, idx, acc =>
    if c = '(' then tokA orig f rest (idx + 1) (acc ++ [.OpenParen])
    else if c = ')' then tokA orig f rest (idx + 1) (acc ++ [.CloseParen])
    else if c = '*' then tokA orig f rest (idx + 1) (acc ++ [.Multiply])
    else if c = '/' ∨ c = '÷' then tokA orig f rest (idx + 1) (acc ++ [.Divide])
    else if c = '+' then tokA orig f rest (idx + 1) (acc ++ [.Plus])
    else if c = '^' then tokA orig f rest (idx + 1) (acc ++ [.Caret])
    else if c = ',' then tokA orig f rest (idx + 1) (acc ++ [.Comma])
    else if c = '|' then
      match rest with
      | '|' :: r2 => tokA orig f r2 (idx + 2) (acc ++ [.Or])
      | _ => tokA orig f rest (idx + 1) (acc ++ [.Bar])
    else if c = '!' then
      match rest with
      | '=' :: r2 => tokA orig f r2 (idx + 2) (acc ++ [.NEq])
      | _ => tokA orig f rest (idx + 1) (acc ++ [.Exclamation])
    else if c = '&' then
      match rest with
      | '&' :: r2 => tokA orig f r2 (idx + 2) (acc ++ [.And])
      | _ => .err ⟨⟩
    else if c = '=' then
      match rest with
      | '=' :: r2 => tokA orig f r2 (idx + 2) (acc ++ [.Eq])
      | _ => tokA orig f rest (idx + 1) (acc ++ [.Assign])
    else if c = '>' then
      match rest with
      | '=' :: r2 => tokA orig f r2 (idx + 2) (acc ++ [.Gte])
      | _ => tokA orig f rest (idx + 1) (acc ++ [.Gt])
    else if c = '<' then
      match rest with
      | '=' :: r2 => tokA orig f r2 (idx + 2) (acc ++ [.Lte])
      | _ => tokA orig f rest (idx + 1) (acc ++ [.Lt])
    else if c = '-' then tokA orig f rest (idx + 1) (acc ++ [.Minus])
    else if c.isWhitespace then tokA orig f rest (idx + 1) acc
    else if isNumericCh c then
      let (t, r2) := numRun rest false
      let curr := c :: t
      if '.' ∈ curr then
        tokA orig f r2 (idx + curr.length) (acc ++ [.Real (parseF32 curr)])
      else
        match parseI32 curr with
        | some i => tokA orig f r2 (idx + curr.length) (acc ++ [.Integer i])
        | none => .panic
    else if isAlphabeticCh c then
      let (endIdx, r2) := wordRun idx rest
      match rustSliceIncl orig idx endIdx with
      | none => .panic
      | some w =>
        if w = "true".data then
          tokA orig f r2 (endIdx + 1) (acc ++ [.Bool true])
        else if w = "false".data then
          tokA orig f r2 (endIdx + 1) (acc ++ [.Bool false])
        else if (w.map Char.utf8Size).sum = 1 then
          match w.head? with
          | some ch => tokA orig f r2 (endIdx + 1) (acc ++ [.Variable ch])
          | none => .panic
        else
          tokA orig f r2 (endIdx + 1) (acc ++ [.Ident w])
    else .err ⟨⟩

/-- The tokenizer entry point (`Tokenizable::tokenize` for strings).  The
fuel is one more than the input length; every loop iteration consumes at
least one character, so the fuel never runs out. -/
def tokenize (s : List Char) : MRes InvalidToken (List Token) :=
  tokA s (s.length + 1) s 0 []

/-- Tokenize a Lean string literal. -/
def tokenizeStr (s : String) : MRes InvalidToken (List Token) :=
  tokenize s.data

/-! ## AST and parser (src/chalk-core/src/ast.rs) -/

/-- All unary operations (`UnaryOperator`). -/
inductive UnaryOperator where
  | Neg
  | Factorial
  | Floor
  | Ceil
  | Tan
  | Cos
  | Sin
  | ATan
  | ACos
  | ASin
  | Ln
deriving DecidableEq, Repr

/-- All binary operations (`BinaryOperator`). -/
inductive BinaryOperator where
  | Add
  | Subtract
  | Multiply
  | Divide
  | Pow
  | Gcd
  | Lcm
  | Eq
  | NEq
  | Gt
  | Lt
  | Gte
  | Lte
  | And
  | Or
deriving DecidableEq, Repr

/-- A node in the AST (`Expr`). -/
inductive Expr where
  | Assignment (v : Char) (node : Expr)
  | Variable (v : Char)
  | Integer (i : Int)
  | Real (r : QF)
  | Bool (b : Bool)
  | BinaryOp (op : BinaryOperator) (left right : Expr)
  | UnaryOp (op : UnaryOperator) (node : Expr)
  | Paren (node : Expr)
  | AbsVal (node : Expr)
deriving DecidableEq, Repr

/-- Rust `TryFrom<&str> for UnaryOperator`: case-insensitive named unary
operators ("ln" is absent in the source and hence unreachable). -/
def unOpFromIdent (s : List Char) : Option UnaryOperator :=
  let l := s.map Char.toLower
  if l = "neg".data then some .Neg
  else if l = "factorial".data then some .Factorial
  else if l = "floor".data then some .Floor
  else if l = "ceil".data then some .Ceil
  else if l = "tan".data then some .Tan
  else if l = "cos".data then some .Cos
  else if l = "sin".data then some .Sin
  else if l = "atan".data then some .ATan
  else if l = "acos".data then some .ACos
  else if l = "asin".data then some .ASin
  else none

/-- Rust `TryFrom<&str> for BinaryOperator`: case-insensitive named binary
operators with their accepted abbreviations. -/
def binOpFromIdent (s : List Char) : Option BinaryOperator :=
  let l := s.map Char.toLower
  if l = "add".data then some .Add
  else if l = "subtract".data ∨ l = "sub".data then some .Subtract
  else if l = "multiply".data ∨ l = "mul".data then some .Multiply
  else if l = "divide".data ∨ l = "div".data then some .Divide
  else if l = "pow".data then some .Pow
  else if l = "gcd".data then some .Gcd
  else if l = "lcm".data then some .Lcm
  else if l = "eq".data then some .Eq
  else if l = "neq".data then some .NEq
  else if l = "gt".data then some .Gt
  else if l = "lt".data then some .Lt
  else if l = "gte".data then some .Gte
  else if l = "lte".data then some .Lte
  else if l = "and".data then some .And
  else if l = "or".data then some .Or
  else none

/-- Generic parser error (`ParseError`). -/
structure ParseError where
deriving DecidableEq, Repr

/-- `Parser::peek`: reads `tokens[current]`; out-of-bounds indexing is a
Rust panic. -/
def peekTok (toks : List Token) (cur : Nat) : MRes ParseError Token :=
  match toks[cur]? with
  | some t => .ok t
  | none => .panic

/-- `Parser::peek_n`: reads `tokens[current + n]`; out-of-bounds indexing
is a Rust panic. -/
def peekTokN (toks : List Token) (cur n : Nat) : MRes ParseError Token :=
  match toks[cur + n]? with
  | some t => .ok t
  | none => .panic

/-- `Parser::consume`: checks that the next token is the expected one and
advances past it, otherwise a `ParseError`. -/
def consumeTok (toks : List Token) (cur : Nat) (t : Token) :
    MRes ParseError Nat := do
  let x ← peekTok toks cur
  if x = t then pure (cur + 1) else .err ⟨⟩

/-- Tag for the recursive-descent rule currently being run; loop tags carry
the accumulated left operand of the corresponding while-loop. -/
inductive PRule where
  | assignment
  | chained
  | chainedLoop (acc : Expr)
  | comparison
  | expression
  | expressionLoop (acc : Expr)
  | term
  | termLoop (acc : Expr)
  | power
  | powerLoop (acc : Expr)
  | factorial
  | factorialLoop (acc : Expr)
  | factor
deriving DecidableEq, Repr

/-- The recursive-descent parser: one case per `Parser` method of the
source, combined into a single function so that the recursion is structural
on the fuel (every call site recurses with one unit less). -/
def pRun : Nat → PRule → List Token → Nat → MRes ParseError (Expr × Nat)
  | 0, _, _, _ => .nofuel
  | f + 1, rule, toks, cur =>
    match rule with
    | .assignment => do
      let t0 ← peekTok toks cur
      let t1 ← peekTokN toks cur 1
      match t0, t1 with
      | .Variable v, .Assign => do
        let (e, cur2) ← pRun f .chained toks (cur + 2)
        pure (.Assignment v e, cur2)
      | _, _ => pRun f .chained toks cur
    | .chained => do
      let (s, cur2) ← pRun f .comparison toks cur
      pRun f (.chainedLoop s) toks cur2
    | .chainedLoop acc => do
      let t ← peekTok toks cur
      match t with
      | .And => do
        let (r, cur2) ← pRun f .comparison toks (cur + 1)
        pRun f (.chainedLoop (.BinaryOp .And acc r)) toks cur2
      | .Or => do
        let (r, cur2) ← pRun f .comparison toks (cur + 1)
        pRun f (.chainedLoop (.BinaryOp .Or acc r)) toks cur2
      | _ => pure (acc, cur)
    | .comparison => do
      let (s, cur2) ← pRun f .expression toks cur
      let t ← peekTok toks cur2
      match t with
      | .Eq => do
        let (r, cur3) ← pRun f .expression toks (cur2 + 1)
        pure (.BinaryOp .Eq s r, cur3)
      | .NEq => do
        let (r, cur3) ← pRun f .expression toks (cur2 + 1)
        pure (.BinaryOp .NEq s r, cur3)
      | .Lt => do
        let (r, cur3) ← pRun f .expression toks (cur2 + 1)
        pure (.BinaryOp .Lt s r, cur3)
      | .Lte => do
        let (r, cur3) ← pRun f .expression toks (cur2 + 1)
        pure (.BinaryOp .Lte s r, cur3)
      | .Gt => do
        let (r, cur3) ← pRun f .expression toks (cur2 + 1)
        pure (.BinaryOp .Gt s r, cur3)
      | .Gte => do
        let (r, cur3) ← pRun f .expression toks (cur2 + 1)
        pure (.BinaryOp .Gte s r, cur3)
      | _ => pure (s, cur2)
    | .expression => do
      let (s, cur2) ← pRun f .term toks cur
      pRun f (.expressionLoop s) toks cur2
    | .expressionLoop acc => do
      let t ← peekTok toks cur
      match t with
      | .Plus => do
        let (r, cur2) ← pRun f .term toks (cur + 1)
        pRun f (.expressionLoop (.BinaryOp .Add acc r)) toks cur2
      | .Minus => do
        let (r, cur2) ← pRun f .term toks (cur + 1)
        pRun f (.expressionLoop (.BinaryOp .Subtract acc r)) toks cur2
      | _ => pure (acc, cur)
    | .term => do
      let (s, cur2) ← pRun f .power toks cur
      pRun f (.termLoop s) toks cur2
    | .termLoop acc => do
      let t ← peekTok toks cur
      match t with
      | .Divide => do
        let (r, cur2) ← pRun f .power toks (cur + 1)
        pRun f (.termLoop (.BinaryOp .Divide acc r)) toks cur2
      | .Multiply => do
        let (r, cur2) ← pRun f .power toks (cur + 1)
        pRun f (.termLoop (.BinaryOp .Multiply acc r)) toks cur2
      | .OpenParen => do
        let (r, cur2) ← pRun f .chained toks (cur + 1)
        let cur3 ← consumeTok toks cur2 .CloseParen
        pRun f (.termLoop (.BinaryOp .Multiply acc r)) toks cur3
      | _ => pure (acc, cur)
    | .power => do
      let (s, cur2) ← pRun f .factorial toks cur
      pRun f (.powerLoop s) toks cur2
    | .powerLoop acc => do
      let t ← peekTok toks cur
      if t = .Caret then do
        let (e, cur2) ← pRun f .factorial toks (cur + 1)
        pRun f (.powerLoop (.BinaryOp .Pow acc e)) toks cur2
      else pure (acc, cur)
    | .factorial => do
      let (s, cur2) ← pRun f .factor toks cur
      pRun f (.factorialLoop s) toks cur2
    | .factorialLoop acc => do
      let t ← peekTok toks cur
      if t = .Exclamation then
        pRun f (.factorialLoop (.UnaryOp .Factorial acc)) toks (cur + 1)
      else pure (acc, cur)
    | .factor => do
      let t ← peekTok toks cur
      let cur := cur + 1
      match t with
      | .Minus => do
        let (e, cur2) ← pRun f .factor toks cur
        pure (.UnaryOp .Neg e, cur2)
      | .Real n => pure (.Real n, cur)
      | .Integer i => pure (.Integer i, cur)
      | .Bool b => pure (.Bool b, cur)
      | .OpenParen => do
        let (inner, cur2) ← pRun f .chained toks cur
        let cur3 ← consumeTok toks cur2 .CloseParen
        pure (.Paren inner, cur3)
      | .Bar => do
        let (inner, cur2) ← pRun f .chained toks cur
        let cur3 ← consumeTok toks cur2 .Bar
        pure (.AbsVal inner, cur3)
      | .Variable v => pure (.Variable v, cur)
      | .Ident s =>
        match binOpFromIdent s with
        | some op => do
          let cur2 ← consumeTok toks cur .OpenParen
          let (l, cur3) ← pRun f .chained toks cur2
          let cur4 ← consumeTok toks cur3 .Comma
          let (r, cur5) ← pRun f .chained toks cur4
          let cur6 ← consumeTok toks cur5 .CloseParen
          pure (.BinaryOp op l r, cur6)
        | none =>
          match unOpFromIdent s with
          | some op => do
            let cur2 ← consumeTok toks cur .OpenParen
            let (node, cur3) ← pRun f .chained toks cur2
            let cur4 ← consumeTok toks cur3 .CloseParen
            pure (.UnaryOp op node, cur4)
          | none => .err ⟨⟩
      | _ => .err ⟨⟩

/-- `Parser::assignment`: `variable = chained` or just `chained`. -/
def pAssignment (f : Nat) (toks : List Token) (cur : Nat) :
    MRes ParseError (Expr × Nat) :=
  pRun f .assignment toks cur

/-- Fuel for the parser: each descent through the eight precedence levels
either consumes a token before recursing or returns, so this bound is
ample for every input considered below. -/
def parserFuel (toks : List Token) : Nat := 16 * (toks.length + 1)

/-- `Parser::parse`: parse an assignment, then require the end-of-input
token. -/
def parseToks (toks : List Token) : MRes ParseError Expr := do
  let (e, cur) ← pAssignment (parserFuel toks) toks 0
  let _ ← consumeTok toks cur .EOF
  pure e

/-! ## Number theory (src/chalk-core/src/math/{prime,gcd,lcm}.rs) -/

/-- The while-loop inside `PrimeMachine::next`: starting from `curr`, find
the first value not divisible by any cached value.  The fuel bounds the
search; `searchNotDiv_succeeds` shows the bound used by `machineNext` is
always enough, so the fueled function agrees with the Rust loop. -/
def searchNotDiv (cache : List Nat) : Nat → Nat → Option Nat
  | 0, _ => none
  | f + 1, curr =>
    if cache.any (fun v => curr % v = 0) then searchNotDiv cache f (curr + 1)
    else some curr

/-- `PrimeMachine::next`: 2 when the cache is empty, otherwise the first
value after the last cached one that no cached value divides.  The search
fuel `cache.prod + 2` is sufficient (there is always a qualifying value at
distance at most the product of the cache plus one). -/
def machineNext (cache : List Nat) : Option Nat :=
  match cache.getLast? with
  | none => some 2
  | some last => searchNotDiv cache (cache.prod + 2) (last + 1)

/-- The for-loop over a fresh `PrimeMachine` inside
`PrimeFactorizable::prime_factorize`: draw successive machine values
(pushing each into the cache) until one exceeds `s` or divides `curr`, and
return it. -/
def scanMachine : List Nat → Nat → Nat → Nat → Option Nat
  | _, 0, _, _ => none
  | cache, f + 1, s, curr =>
    match machineNext cache with
    | none => none
    | some e =>
      if s < e ∨ curr % e = 0 then some e
      else scanMachine (cache ++ [e]) f s curr

/-- Search upward from `k` for the least value whose square reaches `n`. -/
def ceilSqrtGo (n : Nat) : Nat → Nat → Nat
  | 0, k => k
  | f + 1, k => if n ≤ k * k then k else ceilSqrtGo n f (k + 1)

/-- Rust `f32::sqrt(n as f32).ceil() as usize`, idealized to the exact
ceiling of the square root, the least `k` with `n ≤ k * k` (exact for all
inputs evaluated below; the product identity proved about gcd/lcm does not
depend on the value of this bound). -/
def ceilSqrt (n : Nat) : Nat := ceilSqrtGo n (n + 1) 0

/-- The outer while-loop of `prime_factorize`: while the quotient is not 1,
scan a fresh prime machine for the first value exceeding the square-root
bound (then the quotient itself is pushed and becomes 1 — with a division
panic if the quotient is 0) or dividing the quotient (then it is pushed and
divided out).  `none` covers fuel exhaustion and the division-by-zero panic
on input 0; `factOut_succeeds` shows fuel `n + 1` suffices for `n ≥ 1`. -/
def factOut : Nat → Nat → List Nat → Option (List Nat)
  | 0, _, _ => none
  | f + 1, curr, acc =>
    if curr = 1 then some acc
    else
      let s := ceilSqrt curr
      match scanMachine [] (s + 2) s curr with
      | none => none
      | some e =>
        if s < e then
          if curr = 0 then none else factOut f 1 (acc ++ [curr])
        else factOut f (curr / e) (acc ++ [e])

/-- `PrimeFactorizable::prime_factorize`: run the outer loop from `n` and
sort the collected factors (Rust `Vec::sort`, modelled by insertion sort,
which produces the same sorted list). -/
def primeFactorize (n : Nat) : Option (List Nat) :=
  (factOut (n + 1) n []).map (List.insertionSort (· ≤ ·))

/-- `Powers::generate_powers` inner pass: for each value of `l` not seen
yet, record the pair (value, number of occurrences in the full list). -/
def gpAux (full : List Nat) : List Nat → List Nat → List (Nat × Nat)
  | [], _ => []
  | v :: rest, seen =>
    if v ∈ seen then gpAux full rest seen
    else (v, full.count v) :: gpAux full rest (v :: seen)

/-- `Powers::generate_powers`: the (value, multiplicity) pairs of a factor
list, one per distinct value in order of first occurrence. -/
def generatePowers (l : List Nat) : List (Nat × Nat) := gpAux l l []

/-- One `powers.entry(val).or_default().push(pow)` step on the grouping
map, modelled as an association list in first-insertion order. -/
def insertGroup : List (Nat × List Nat) → Nat → Nat → List (Nat × List Nat)
  | [], v, p => [(v, [p])]
  | (w, ps) :: rest, v, p =>
    if w = v then (w, ps ++ [p]) :: rest
    else (w, ps) :: insertGroup rest v p

/-- The grouping loop shared by `gcd` and `lcm`: group the (value, power)
pairs by value. -/
def groupPows (pairs : List (Nat × Nat)) : List (Nat × List Nat) :=
  pairs.foldl (fun m vp => insertGroup m vp.1 vp.2) []

/-- Rust `Iterator::min().unwrap_or(0)` on a list of naturals. -/
def listMin : List Nat → Nat
  | [] => 0
  | [x] => x
  | x :: xs => min x (listMin xs)

/-- Rust `Iterator::max().unwrap_or(0)` on a list of naturals. -/
def listMax : List Nat → Nat
  | [] => 0
  | [x] => x
  | x :: xs => max x (listMax xs)

/-- The exponent `gcd` gives a grouped prime: 0 when the prime occurs in
only one factorization, else the minimum of its exponents. -/
def gcdExp (ps : List Nat) : Nat := if ps.length = 1 then 0 else listMin ps

/-- The exponent `lcm` gives a grouped prime: its sole exponent when the
prime occurs in only one factorization, else the maximum. -/
def lcmExp (ps : List Nat) : Nat := if ps.length = 1 then ps.headD 0 else listMax ps

/-- `gcd(a, b)`: factorize both arguments, group the multiplicity pairs,
and multiply the grouped primes raised to their `gcd` exponents.  `none`
models the factorization panic (an argument of 0). -/
def gcd (a b : Nat) : Option Nat := do
  let fa ← primeFactorize a
  let fb ← primeFactorize b
  let entries := groupPows (generatePowers fa ++ generatePowers fb)
  some (entries.foldl (fun g e => g * e.1 ^ gcdExp e.2) 1)

/-- `lcm(a, b)`: same shape as `gcd` with the `lcm` exponent rule. -/
def lcm (a b : Nat) : Option Nat := do
  let fa ← primeFactorize a
  let fb ← primeFactorize b
  let entries := groupPows (generatePowers fa ++ generatePowers fb)
  some (entries.foldl (fun g e => g * e.1 ^ lcmExp e.2) 1)

/-! ## Evaluator (src/chalk-core/src/exec.rs) -/

/-- The builtin boolean type under an unambiguous name, for use inside
namespaces where a constructor named `Bool` shadows it. -/
abbrev BoolT : Type := Bool

/-- A runtime type error (`RuntimeError`). -/
structure RuntimeError where
deriving DecidableEq, Repr

/-- All results an AST may have (`EvalResult`): `i32` as `Int`, `f32` as
exact fractions. -/
inductive EvalResult where
  | Integer (i : Int)
  | Float (q : QF)
  | Bool (b : Bool)
deriving DecidableEq, Repr

namespace EvalResult

/-- The `PartialEq` implementation on `EvalResult`: numeric values compare
across the integer/float tags (the `i as f32` widening is modelled as the
exact cast, faithful for the magnitudes appearing here); a boolean never
equals a numeric value. -/
def beq : EvalResult → EvalResult → BoolT
  | .Integer i1, .Integer i2 => i1 = i2
  | .Integer i1, .Float f1 => QF.qeq (QF.ofInt i1) f1
  | .Float f1, .Integer i1 => QF.qeq f1 (QF.ofInt i1)
  | .Float f1, .Float f2 => QF.qeq f1 f2
  | .Bool b1, .Bool b2 => b1 = b2
  | _, _ => false

/-- `EvalResult::uint`: a non-negative integer, or a non-negative float
with no fractional part; otherwise a `RuntimeError`. -/
def uintc : EvalResult → Except RuntimeError Nat
  | .Integer i => if 0 ≤ i then .ok i.toNat else .error ⟨⟩
  | .Float f =>
    if f.integral ∧ QF.qle (QF.ofInt 0) f then .ok f.intVal.toNat
    else .error ⟨⟩
  | .Bool _ => .error ⟨⟩

/-- `EvalResult::float`: floats pass through, integers widen; a boolean is
a `RuntimeError`. -/
def floatc : EvalResult → Except RuntimeError QF
  | .Float f => .ok f
  | .Integer i => .ok (QF.ofInt i)
  | .Bool _ => .error ⟨⟩

/-- `EvalResult::bool`: only a boolean passes; anything else is a
`RuntimeError`. -/
def boolc : EvalResult → Except RuntimeError BoolT
  | .Bool b => .ok b
  | _ => .error ⟨⟩

end EvalResult

/-- Reinterpret a natural number modulo 2^32 as a signed `i32` (the Rust
release-mode wrapping `as` cast; every value reached below is far below
the wrap). -/
def wrap32 (n : Nat) : Int :=
  let m := n % 4294967296
  if m < 2147483648 then (m : Int) else (m : Int) - 4294967296

/-- Rust `(1..=n).product::<u32>()` before the `as i32` cast: the product
of 1..n (u32 wrapping multiplication agrees with the product modulo 2^32,
which `wrap32` applies). -/
def rangeProd (n : Nat) : Nat := (List.range' 1 n).prod

/-- Placeholder for the `f32` transcendental functions (`sin`, `cos`,
`tan`, their inverses and `ln`): these are not modelled, and no property
below evaluates them. -/
def transcProxy (_ : QF) : QF := ⟨0, 1⟩

/-- `UnaryOperator::eval`: evaluation of a unary operator on a result. -/
def UnaryOperator.eval : UnaryOperator → EvalResult →
    Except RuntimeError EvalResult
  | .Neg, e => (e.floatc).map fun q => .Float (QF.neg q)
  | .Factorial, e => (e.uintc).map fun n => .Integer (wrap32 (rangeProd n))
  | .Floor, e => (e.floatc).map fun q => .Integer (QF.qfloor q)
  | .Ceil, e => (e.floatc).map fun q => .Integer (QF.qceil q)
  | .Cos, e => (e.floatc).map fun q => .Float (transcProxy q)
  | .Sin, e => (e.floatc).map fun q => .Float (transcProxy q)
  | .Tan, e => (e.floatc).map fun q => .Float (transcProxy q)
  | .ACos, e => (e.floatc).map fun q => .Float (transcProxy q)
  | .ASin, e => (e.floatc).map fun q => .Float (transcProxy q)
  | .ATan, e => (e.floatc).map fun q => .Float (transcProxy q)
  | .Ln, e => (e.floatc).map fun q => .Float (transcProxy q)

/-- Rust `f32::powf`, modelled at integral exponents (the only exponents
any property below evaluates); a non-integral exponent gets an unused
placeholder value. -/
def powQ (b e : QF) : QF :=
  if e.integral then QF.zpowQ b e.intVal else ⟨0, 1⟩

/-- `BinaryOperator::eval`: evaluation of a binary operator on two already
evaluated results.  The option layer carries the gcd/lcm panic on a zero
operand (`none`); every other operator is total up to `RuntimeError`.
In the logical branches, Rust's lazy `&&`/`||` surrounding the boolean
coercions means the right coercion error is only raised when the left
operand does not already decide the result. -/
def BinaryOperator.eval : BinaryOperator → EvalResult → EvalResult →
    Option (Except RuntimeError EvalResult)
  | .Add, l, r => some do pure (.Float (QF.add (← l.floatc) (← r.floatc)))
  | .Divide, l, r => some do pure (.Float (QF.div (← l.floatc) (← r.floatc)))
  | .Multiply, l, r => some do pure (.Float (QF.mul (← l.floatc) (← r.floatc)))
  | .Subtract, l, r => some do pure (.Float (QF.sub (← l.floatc) (← r.floatc)))
  | .Pow, l, r => some do pure (.Float (powQ (← l.floatc) (← r.floatc)))
  | .Gcd, l, r =>
    match l.uintc, r.uintc with
    | .error e, _ => some (.error e)
    | .ok _, .error e => some (.error e)
    | .ok a, .ok b => (Chalk.gcd a b).map fun g => .ok (.Integer (wrap32 g))
  | .Lcm, l, r =>
    match l.uintc, r.uintc with
    | .error e, _ => some (.error e)
    | .ok _, .error e => some (.error e)
    | .ok a, .ok b => (Chalk.lcm a b).map fun g => .ok (.Integer (wrap32 g))
  | .Eq, l, r => some (.ok (.Bool (l.beq r)))
  | .NEq, l, r => some (.ok (.Bool (!l.beq r)))
  | .Gt, l, r => some do
    let lv ← l.floatc
    let rv ← r.floatc
    pure (.Bool (QF.qlt rv lv))
  | .Gte, l, r => some do
    let lv ← l.floatc
    let rv ← r.floatc
    pure (.Bool (QF.qle rv lv))
  | .Lt, l, r => some do pure (.Bool (QF.qlt (← l.floatc) (← r.floatc)))
  | .Lte, l, r => some do pure (.Bool (QF.qle (← l.floatc) (← r.floatc)))
  | .And, l, r =>
    some (match l.boolc with
      | .error e => .error e
      | .ok bl =>
        if bl then (r.boolc).map EvalResult.Bool else .ok (.Bool false))
  | .Or, l, r =>
    some (match l.boolc with
      | .error e => .error e
      | .ok bl =>
        if bl then .ok (.Bool true) else (r.boolc).map EvalResult.Bool)

/-- The evaluator's variable-binding table (`HashMap<char, Expr>`),
modelled as an association list with insert-or-update semantics. -/
abbrev Ctx : Type := List (Char × Expr)

/-- Look a variable up in the binding table (`ctx.get`). -/
def ctxGet : Ctx → Char → Option Expr
  | [], _ => none
  | (k, v) :: rest, c => if k = c then some v else ctxGet rest c

/-- Bind (or rebind) a variable (`ctx.entry(v).or_insert(..)` immediately
overwritten by assignment, i.e. insert-or-update). -/
def ctxInsert : Ctx → Char → Expr → Ctx
  | [], c, e => [(c, e)]
  | (k, v) :: rest, c, e =>
    if k = c then (k, e) :: rest else (k, v) :: ctxInsert rest c e

/-- Decidable equality for `Except` results, needed to evaluate concrete
runs of the evaluator inside proofs. -/
instance exceptDecEq {eps alf : Type} [DecidableEq eps] [DecidableEq alf] :
    DecidableEq (Except eps alf) := fun a b =>
  match a, b with
  | .error e1, .error e2 =>
    if h : e1 = e2 then .isTrue (congrArg Except.error h)
    else .isFalse fun hc => h (Except.error.inj hc)
  | .ok a1, .ok a2 =>
    if h : a1 = a2 then .isTrue (congrArg Except.ok h)
    else .isFalse fun hc => h (Except.ok.inj hc)
  | .error _, .ok _ => .isFalse fun hc => Except.noConfusion hc
  | .ok _, .error _ => .isFalse fun hc => Except.noConfusion hc

/-- Outcome of a fueled `Evaluator::exec` call: `nofuel` marks exhaustion
of the modelling fuel (the source recursion does not terminate on every
input), `panic` a Rust panic (gcd/lcm on 0), and `done` a normal return
carrying the possibly mutated binding table. -/
inductive ERes where
  | nofuel
  | panic
  | done (r : Except RuntimeError EvalResult) (ctx : Ctx)
deriving DecidableEq, Repr

/-- `Evaluator::exec`: evaluate an AST, threading the binding table.
An assignment stores the unevaluated right-hand expression first and then
evaluates it; a variable reference evaluates its binding (late binding). -/
def execF : Nat → Ctx → Expr → ERes
  | 0, _, _ => .nofuel
  | f + 1, ctx, ast =>
    match ast with
    | .Variable v =>
      match ctxGet ctx v with
      | some e => execF f ctx e
      | none => .done (.error ⟨⟩) ctx
    | .Assignment v node => execF f (ctxInsert ctx v node) node
    | .Real n => .done (.ok (.Float n)) ctx
    | .Integer i => .done (.ok (.Integer i)) ctx
    | .Bool b => .done (.ok (.Bool b)) ctx
    | .Paren inner => execF f ctx inner
    | .BinaryOp op l r =>
      match execF f ctx l with
      | .nofuel => .nofuel
      | .panic => .panic
      | .done (.error e) ctx1 => .done (.error e) ctx1
      | .done (.ok lv) ctx1 =>
        match execF f ctx1 r with
        | .nofuel => .nofuel
        | .panic => .panic
        | .done (.error e) ctx2 => .done (.error e) ctx2
        | .done (.ok rv) ctx2 =>
          match BinaryOperator.eval op lv rv with
          | none => .panic
          | some res => .done res ctx2
    | .UnaryOp op node =>
      match execF f ctx node with
      | .nofuel => .nofuel
      | .panic => .panic
      | .done (.error e) ctx1 => .done (.error e) ctx1
      | .done (.ok v) ctx1 => .done (UnaryOperator.eval op v) ctx1
    | .AbsVal inner =>
      match execF f ctx inner with
      | .nofuel => .nofuel
      | .panic => .panic
      | .done (.error e) ctx1 => .done (.error e) ctx1
      | .done (.ok v) ctx1 =>
        match v.floatc with
        | .error e => .done (.error e) ctx1
        | .ok q => .done (.ok (.Float (QF.qabs q))) ctx1

/-- `Evaluator::depends_on`: whether the AST reads the variable, directly
or transitively through the current bindings.  Assignment and literal
nodes fall into the catch-all arm of the source and yield `false` without
descending.  Fueled because binding chains can be cyclic. -/
def dependsOnF : Nat → Ctx → Expr → Char → Option Bool
  | 0, _, _, _ => none
  | f + 1, ctx, ast, dep =>
    match ast with
    | .AbsVal e => dependsOnF f ctx e dep
    | .UnaryOp _ node => dependsOnF f ctx node dep
    | .Variable v =>
      if v = dep then some true
      else
        match ctxGet ctx v with
        | some sub => dependsOnF f ctx sub dep
        | none => some false
    | .BinaryOp _ l r =>
      match dependsOnF f ctx l dep with
      | none => none
      | some true => some true
      | some false => dependsOnF f ctx r dep
    | .Paren node => dependsOnF f ctx node dep
    | _ => some false

/-! ## Auxiliary definitions used by the statements and proofs -/

/-- Size of an AST, a fuel bound for `execF` on variable-free trees. -/
def sizeE : Expr → Nat
  | .Assignment _ node => 1 + sizeE node
  | .Variable _ => 1
  | .Integer _ => 1
  | .Real _ => 1
  | .Bool _ => 1
  | .BinaryOp _ l r => 1 + sizeE l + sizeE r
  | .UnaryOp _ node => 1 + sizeE node
  | .Paren node => 1 + sizeE node
  | .AbsVal node => 1 + sizeE node

/-- Whether an AST contains no variable-reference node. -/
def noVarB : Expr → Bool
  | .Assignment _ node => noVarB node
  | .Variable _ => false
  | .Integer _ => true
  | .Real _ => true
  | .Bool _ => true
  | .BinaryOp _ l r => noVarB l && noVarB r
  | .UnaryOp _ node => noVarB node
  | .Paren node => noVarB node
  | .AbsVal node => noVarB node

/-- Whether an AST contains no assignment node. -/
def noAssignB : Expr → Bool
  | .Assignment _ _ => false
  | .Variable _ => true
  | .Integer _ => true
  | .Real _ => true
  | .Bool _ => true
  | .BinaryOp _ l r => noAssignB l && noAssignB r
  | .UnaryOp _ node => noAssignB node
  | .Paren node => noAssignB node
  | .AbsVal node => noAssignB node

/-- Whether every expression bound in the state is assignment-free. -/
def ctxNoAssign (ctx : Ctx) : Prop := ∀ p ∈ ctx, noAssignB p.2 = true

/-- Nontermination of `exec` on a given state and AST: every fuel bound is
exhausted. -/
def divergesOn (ctx : Ctx) (ast : Expr) : Prop :=
  ∀ f, execF f ctx ast = ERes.nofuel

/-- Run a sequence of statements on one evaluator, threading the binding
table across them (the REPL usage pattern); stops after an abnormal
outcome. -/
def runSteps (fuel : Nat) : Ctx → List Expr → List ERes
  | _, [] => []
  | ctx, e :: rest =>
    match execF fuel ctx e with
    | .done r ctx2 => .done r ctx2 :: runSteps fuel ctx2 rest
    | out => [out]

/-- The keys of an association list. -/
def keysOf {β : Type} (l : List (Nat × β)) : List Nat := l.map Prod.fst

/-- Lookup in the grouping association list. -/
def lookupG : List (Nat × List Nat) → Nat → Option (List Nat)
  | [], _ => none
  | (k, v) :: rest, c => if k = c then some v else lookupG rest c

/-- The last element of the prime machine cache, with a default (1 stands
for the state before the first emission, whose successor is 2). -/
def lastD (cache : List Nat) (d : Nat) : Nat := (cache.getLast?).getD d

/-- Product of an exponent list: each pair contributes base to the power
of its recorded multiplicity. -/
def pprod (l : List (Nat × Nat)) : Nat := (l.map fun p => p.1 ^ p.2).prod

end Chalk

namespace Chalk

/-- Any value `searchNotDiv` returns is at least the start point and is
divisible by no cache element. -/
theorem searchNotDiv_spec {cache : List Nat} (h2 : ∀ v ∈ cache, 2 ≤ v) :
    ∀ f start r, searchNotDiv cache f start = some r →
      start ≤ r ∧ ∀ v ∈ cache, ¬ v ∣ r := by
  intro f
  induction f with
  | zero => intro start r h; simp [searchNotDiv] at h
  | succ f ih =>
    intro start r h
    rw [searchNotDiv] at h
    by_cases hc : cache.any (fun v => start % v = 0)
    · simp only [hc, if_pos] at h
      have := ih (start + 1) r h
      exact ⟨by omega, this.2⟩
    · simp only [hc, if_neg, not_false_iff] at h
      simp only [List.any_eq_true, not_exists, not_and] at hc
      cases h
      refine ⟨le_refl _, fun v hv hdvd => ?_⟩
      have : start % v = 0 := Nat.mod_eq_zero_of_dvd hdvd
      exact absurd (by simpa using this) (by simpa using hc v hv)

/-- `searchNotDiv` succeeds whenever a qualifying value lies inside the
fuel window. -/
theorem searchNotDiv_succeeds {cache : List Nat} :
    ∀ f start, (∃ m, start ≤ m ∧ m < start + f ∧ ∀ v ∈ cache, ¬ v ∣ m) →
      (searchNotDiv cache f start).isSome := by
  intro f
  induction f with
  | zero => rintro start ⟨m, hm1, hm2, _⟩; omega
  | succ f ih =>
    rintro start ⟨m, h1, h2, h3⟩
    rw [searchNotDiv]
    by_cases hc : cache.any (fun v => start % v = 0)
    · simp only [hc, if_pos]
      apply ih
      refine ⟨m, ?_, by omega, h3⟩
      rcases Nat.eq_or_lt_of_le h1 with rfl | h
      · exfalso
        simp only [List.any_eq_true] at hc
        obtain ⟨v, hv, hm⟩ := hc
        exact h3 v hv (Nat.dvd_of_mod_eq_zero (by simpa using hm))
      · omega
    · simp [hc]

/-- In any window of length the cache product plus two there is a value
divisible by no cache element (namely one more than a multiple of the
product). -/
theorem exists_notdvd_window {cache : List Nat} (h2 : ∀ v ∈ cache, 2 ≤ v)
    (hne : cache ≠ []) (start : Nat) :
    ∃ m, start ≤ m ∧ m < start + (cache.prod + 2) ∧ ∀ v ∈ cache, ¬ v ∣ m := by
  set P := cache.prod with hP
  have hPpos : 0 < P := List.prod_pos (fun x hx => by have := h2 x hx; omega)
  have hP2 : 2 ≤ P := by
    obtain ⟨c, t, rfl⟩ := List.exists_cons_of_ne_nil hne
    have hc : 2 ≤ c := h2 c (List.mem_cons_self c t)
    have ht : 0 < t.prod := List.prod_pos (fun x hx => by
      have := h2 x (List.mem_cons_of_mem c hx); omega)
    calc 2 ≤ c * 1 := by omega
    _ ≤ c * t.prod := Nat.mul_le_mul_left c ht
    _ = (c :: t).prod := (List.prod_cons).symm
  have hmod := Nat.mod_lt start hPpos
  have hdm := Nat.div_add_mod start P
  refine ⟨P * (start / P) + P + 1, by omega, by omega, ?_⟩
  intro v hv hdvd
  have hvP : v ∣ P := hP ▸ List.dvd_prod hv
  have h2v := h2 v hv
  have hsum : v ∣ P * (start / P) + P := Dvd.dvd.mul_right hvP _ |>.add hvP
  have hone : v ∣ 1 := (Nat.dvd_add_right hsum).mp hdvd
  have := Nat.le_of_dvd (by omega) hone
  omega

/-- `PrimeMachine::next` always succeeds under the cache invariant, and
its emission exceeds the previous one, is at least 2, and is divisible by
no cached value. -/
theorem machineNext_some {cache : List Nat} (h2 : ∀ v ∈ cache, 2 ≤ v) :
    ∃ e, machineNext cache = some e ∧ 2 ≤ e ∧ (∀ v ∈ cache, ¬ v ∣ e) ∧
      lastD cache 1 + 1 ≤ e := by
  cases hlast : cache.getLast? with
  | none =>
    have : cache = [] := List.getLast?_eq_none_iff.mp hlast
    subst this
    exact ⟨2, rfl, by omega, by simp, by simp [lastD]⟩
  | some last =>
    have hmem : last ∈ cache := List.mem_of_getLast?_eq_some hlast
    have hne : cache ≠ [] := by rintro rfl; simp at hlast
    have h2l : 2 ≤ last := h2 last hmem
    have hmn : machineNext cache = searchNotDiv cache (cache.prod + 2) (last + 1) := by
      rw [machineNext, hlast]
    have hwin := exists_notdvd_window h2 hne (last + 1)
    have hsome := searchNotDiv_succeeds (cache.prod + 2) (last + 1) hwin
    cases hs : searchNotDiv cache (cache.prod + 2) (last + 1) with
    | none => rw [hs] at hsome; simp at hsome
    | some r =>
      have hspec := searchNotDiv_spec h2 _ _ _ hs
      refine ⟨r, by rw [hmn, hs], by omega, hspec.2, ?_⟩
      simp only [lastD, hlast, Option.getD_some]
      omega

/-- The factorization scan always returns a breaking emission: one
exceeding the bound or dividing the quotient, and at least 2. -/
theorem scanMachine_succeeds :
    ∀ f (cache : List Nat) s curr, (∀ v ∈ cache, 2 ≤ v) →
      lastD cache 1 ≤ s + 1 → s + 2 ≤ f + lastD cache 1 →
      ∃ e, scanMachine cache f s curr = some e ∧ 2 ≤ e ∧ (s < e ∨ e ∣ curr) := by
  intro f
  induction f with
  | zero => intro cache s curr _ hla hfu; simp [lastD] at hla hfu; omega
  | succ f ih =>
    intro cache s curr h2 hla hfu
    obtain ⟨e, he, h2e, hnd, hgt⟩ := machineNext_some h2
    rw [scanMachine, he]
    by_cases hbrk : s < e ∨ curr % e = 0
    · simp only [hbrk, if_pos]
      refine ⟨e, rfl, h2e, ?_⟩
      rcases hbrk with h | h
      · exact Or.inl h
      · exact Or.inr (Nat.dvd_of_mod_eq_zero h)
    · simp only [hbrk, if_neg, not_false_iff]
      push_neg at hbrk
      obtain ⟨hle, hnmod⟩ := hbrk
      apply ih
      · intro v hv
        rcases List.mem_append.mp hv with h | h
        · exact h2 v h
        · simp at h; omega
      · have : lastD (cache ++ [e]) 1 = e := by simp [lastD]
        omega
      · have : lastD (cache ++ [e]) 1 = e := by simp [lastD]
        omega

/-- The outer factorization loop succeeds on positive quotients within its
fuel, and the product of the collected factors extends the accumulator by
exactly the quotient. -/
theorem factOut_prod :
    ∀ f curr acc, 0 < curr → curr < f →
      ∃ l, factOut f curr acc = some l ∧ l.prod = acc.prod * curr := by
  intro f
  induction f with
  | zero => intro curr acc h1 h2; omega
  | succ f ih =>
    intro curr acc h1 h2
    rw [factOut]
    by_cases hone : curr = 1
    · subst hone
      exact ⟨acc, by simp, by simp⟩
    · simp only [hone, if_neg, not_false_iff]
      have hcurr2 : 2 ≤ curr := by omega
      obtain ⟨e, he, h2e, hbrk⟩ :=
        scanMachine_succeeds (ceilSqrt curr + 2) [] (ceilSqrt curr) curr
          (by simp) (by simp [lastD]) (by simp [lastD])
      rw [he]
      by_cases hgt : ceilSqrt curr < e
      · simp only [hgt, if_pos]
        have : ¬ curr = 0 := by omega
        simp only [this, if_neg, not_false_iff]
        obtain ⟨l, hl, hp⟩ := ih 1 (acc ++ [curr]) (by omega) (by omega)
        refine ⟨l, hl, ?_⟩
        rw [hp]
        simp [List.prod_append]
      · simp only [hgt, if_neg, not_false_iff]
        have hdvd : e ∣ curr := by
          rcases hbrk with h | h
          · exact absurd h hgt
          · exact h
        have hepos : 0 < e := by omega
        have hle : e ≤ curr := Nat.le_of_dvd h1 hdvd
        have hqpos : 0 < curr / e := Nat.div_pos hle hepos
        have hqlt : curr / e < curr := Nat.div_lt_self h1 (by omega)
        obtain ⟨l, hl, hp⟩ := ih (curr / e) (acc ++ [e]) hqpos (by omega)
        refine ⟨l, hl, ?_⟩
        rw [hp, List.prod_append]
        simp only [List.prod_cons, List.prod_nil, Nat.mul_one]
        rw [Nat.mul_assoc]
        congr 1
        exact Nat.mul_div_cancel' hdvd

/-- `prime_factorize` succeeds on positive inputs and the product of the
returned factors is the input. -/
theorem primeFactorize_spec (n : Nat) (h : 0 < n) :
    ∃ l, primeFactorize n = some l ∧ l.prod = n := by
  obtain ⟨l, hl, hp⟩ := factOut_prod (n + 1) n [] h (by omega)
  refine ⟨List.insertionSort (· ≤ ·) l, ?_, ?_⟩
  · simp [primeFactorize, hl]
  · have := (List.perm_insertionSort (· ≤ ·) l).prod_eq
    rw [this, hp]
    simp

/-- Every pair produced by the `generate_powers` pass records the full
multiplicity of its key, and its key comes from the input but not from the
seen set. -/
theorem gpAux_mem {full : List Nat} :
    ∀ l seen p, p ∈ gpAux full l seen →
      p.2 = full.count p.1 ∧ p.1 ∈ l ∧ p.1 ∉ seen := by
  intro l
  induction l with
  | nil => intro seen p h; simp [gpAux] at h
  | cons v rest ih =>
    intro seen p h
    rw [gpAux] at h
    by_cases hv : v ∈ seen
    · simp only [hv, if_pos] at h
      obtain ⟨h1, h2, h3⟩ := ih seen p h
      exact ⟨h1, List.mem_cons_of_mem v h2, h3⟩
    · simp only [hv, if_neg, not_false_iff, List.mem_cons] at h
      rcases h with rfl | h
      · exact ⟨rfl, List.mem_cons_self v rest, hv⟩
      · obtain ⟨h1, h2, h3⟩ := ih (v :: seen) p h
        simp only [List.mem_cons, not_or] at h3
        exact ⟨h1, List.mem_cons_of_mem v h2, h3.2⟩

/-- Every input value not in the seen set appears among the produced
keys. -/
theorem gpAux_keys_mem {full : List Nat} :
    ∀ l seen v, v ∈ l → v ∉ seen → v ∈ keysOf (gpAux full l seen) := by
  intro l
  induction l with
  | nil => intro seen v h; simp at h
  | cons w rest ih =>
    intro seen v hv hseen
    rw [gpAux]
    by_cases hw : w ∈ seen
    · simp only [hw, if_pos]
      rcases List.mem_cons.mp hv with rfl | h
      · exact absurd hw hseen
      · exact ih seen v h hseen
    · simp only [hw, if_neg, not_false_iff]
      rcases List.mem_cons.mp hv with rfl | h
      · simp [keysOf]
      · by_cases hvw : v = w
        · subst hvw; simp [keysOf]
        · have := ih (w :: seen) v h (by simp [hvw, hseen])
          simp only [keysOf, List.map_cons, List.mem_cons]
          exact Or.inr this

/-- The produced keys are distinct and avoid the seen set. -/
theorem gpAux_keys_nodup {full : List Nat} :
    ∀ l seen, (keysOf (gpAux full l seen)).Nodup ∧
      ∀ v ∈ keysOf (gpAux full l seen), v ∉ seen := by
  intro l
  induction l with
  | nil => intro seen; simp [gpAux, keysOf]
  | cons w rest ih =>
    intro seen
    rw [gpAux]
    by_cases hw : w ∈ seen
    · simp only [hw, if_pos]
      exact ih seen
    · simp only [hw, if_neg, not_false_iff]
      obtain ⟨hnd, hout⟩ := ih (w :: seen)
      constructor
      · simp only [keysOf, List.map_cons, List.nodup_cons]
        refine ⟨fun hmem => ?_, hnd⟩
        have := hout w hmem
        simp at this
      · intro v hv
        simp only [keysOf, List.map_cons, List.mem_cons] at hv
        rcases hv with rfl | hv
        · exact hw
        · have := hout v hv
          simp only [List.mem_cons, not_or] at this
          exact this.2

/-- Mapped flat maps agree when the functions agree on members. -/
theorem flatMap_congr_mem {κ β : Type} {f g : κ → List β} :
    ∀ (ks : List κ), (∀ w ∈ ks, f w = g w) → ks.flatMap f = ks.flatMap g := by
  intro ks
  induction ks with
  | nil => intro _; rfl
  | cons v ks ih =>
    intro h
    simp only [List.flatMap_cons]
    rw [h v (List.mem_cons_self v ks), ih fun w hw => h w (List.mem_cons_of_mem v hw)]

/-- Partitioning a list by a complete, duplicate-free list of keys is a
permutation of the list. -/
theorem flatMap_filter_perm {α κ : Type} [DecidableEq κ] (key : α → κ) :
    ∀ (ks : List κ) (l : List α), ks.Nodup → (∀ x ∈ l, key x ∈ ks) →
      List.Perm (ks.flatMap fun v => l.filter fun x => key x = v) l := by
  intro ks
  induction ks with
  | nil =>
    intro l _ hcov
    have : l = [] := by
      cases l with
      | nil => rfl
      | cons x xs => exact absurd (hcov x (List.mem_cons_self x xs)) (by simp)
    simp [this]
  | cons v ks ih =>
    intro l hnd hcov
    have hvks : v ∉ ks := (List.nodup_cons.mp hnd).1
    have hndks : ks.Nodup := (List.nodup_cons.mp hnd).2
    have hsplit : List.Perm ((l.filter fun x => key x = v) ++
        (l.filter fun x => ¬ key x = v)) l := by
      have := List.filter_append_perm (fun x => decide (key x = v)) l
      simpa using this
    have hrest : (ks.flatMap fun w => l.filter fun x => key x = w) =
        ks.flatMap fun w => (l.filter fun x => ¬ key x = v).filter
          fun x => key x = w := by
      apply flatMap_congr_mem
      intro w hw
      have hwv : w ≠ v := fun h => hvks (h ▸ hw)
      rw [List.filter_filter]
      apply List.filter_congr
      intro x _
      by_cases hx : key x = w
      · have hxv : ¬ key x = v := fun h => hwv (hx ▸ h ▸ rfl)
        simp [hx, hxv, hwv]
      · simp [hx]
    have hcov2 : ∀ x ∈ (l.filter fun x => ¬ key x = v), key x ∈ ks := by
      intro x hx
      rw [List.mem_filter] at hx
      have := hcov x hx.1
      rcases List.mem_cons.mp this with h | h
      · exact absurd h (by simpa using hx.2)
      · exact h
    have hcons : (v :: ks).flatMap (fun w => l.filter fun x => key x = w) =
        (l.filter fun x => key x = v) ++
          (ks.flatMap fun w => l.filter fun x => key x = w) := by
      simp [List.flatMap_cons]
    rw [hcons, hrest]
    exact (List.Perm.append_left _
      (ih (l.filter fun x => ¬ key x = v) hndks hcov2)).trans hsplit

/-- Product of a flat map: the product of per-key block products. -/
theorem prod_flatMap {κ : Type} (f : κ → List Nat) :
    ∀ ks : List κ, (ks.flatMap f).prod = (ks.map fun v => (f v).prod).prod := by
  intro ks
  induction ks with
  | nil => rfl
  | cons v ks ih => simp [List.flatMap_cons, List.prod_append, ih]

/-- The multiplicity count of a value equals the length of the filter
keeping exactly that value. -/
theorem count_eq_length_filter_eq (l : List Nat) (v : Nat) :
    l.count v = (l.filter fun x => x = v).length := by
  rw [List.count_eq_countP, List.countP_eq_length_filter]
  congr 1

/-- A value raised to its multiplicity is the product of the filter
keeping exactly that value. -/
theorem pow_count_eq_prod_filter (l : List Nat) (v : Nat) :
    v ^ l.count v = (l.filter fun x => x = v).prod := by
  rw [count_eq_length_filter_eq]
  exact (List.prod_eq_pow_card _ v fun x hx =>
    by simpa using (List.mem_filter.mp hx).2).symm

/-- A pair list whose multiplicities are the counts of a base list has the
base list's product as its power product. -/
theorem map_pow_eq_of_counts {l : List Nat} :
    ∀ A : List (Nat × Nat), (∀ p ∈ A, p.2 = l.count p.1) →
      A.map (fun p => p.1 ^ p.2) = (keysOf A).map fun v => v ^ l.count v := by
  intro A
  induction A with
  | nil => intro _; rfl
  | cons p A ih =>
    intro h
    simp only [List.map_cons, keysOf]
    rw [h p (List.mem_cons_self p A)]
    have := ih fun q hq => h q (List.mem_cons_of_mem p hq)
    simp only [keysOf] at this
    rw [this]

/-- The power product of `generate_powers` recovers the product of the
factor list. -/
theorem pprod_generatePowers (l : List Nat) :
    pprod (generatePowers l) = l.prod := by
  have hmem : ∀ p ∈ generatePowers l, p.2 = l.count p.1 :=
    fun p hp => (gpAux_mem l [] p hp).1
  have hnd : (keysOf (generatePowers l)).Nodup := (gpAux_keys_nodup l []).1
  have hcov : ∀ x ∈ l, x ∈ keysOf (generatePowers l) :=
    fun x hx => gpAux_keys_mem l [] x hx (by simp)
  rw [pprod, map_pow_eq_of_counts _ hmem]
  have hone : ((keysOf (generatePowers l)).map fun v => v ^ l.count v) =
      (keysOf (generatePowers l)).map fun v => (l.filter fun x => x = v).prod := by
    apply List.map_congr_left
    intro v _
    exact pow_count_eq_prod_filter l v
  rw [hone, ← prod_flatMap]
  exact ((flatMap_filter_perm (fun x => x) _ l hnd hcov).prod_eq)

/-- Unfolding lemma: lookup on a cons cell. -/
theorem lookupG_cons (k : Nat) (ps : List Nat) (m : List (Nat × List Nat))
    (w : Nat) : lookupG ((k, ps) :: m) w = if k = w then some ps else lookupG m w :=
  rfl

/-- Unfolding lemma: keys of a cons cell. -/
theorem keysOf_cons {β : Type} (e : Nat × β) (m : List (Nat × β)) :
    keysOf (e :: m) = e.1 :: keysOf m := rfl

/-- Lookup after one grouping insertion: the inserted key gains its new
power at the end of its list, other keys are untouched. -/
theorem insertGroup_lookup :
    ∀ (m : List (Nat × List Nat)) (v p w),
      lookupG (insertGroup m v p) w =
        if w = v then some (((lookupG m v).getD []) ++ [p]) else lookupG m w := by
  intro m
  induction m with
  | nil =>
    intro v p w
    by_cases h : w = v
    · subst h; simp [insertGroup, lookupG]
    · have h2 : ¬ v = w := fun hh => h hh.symm
      simp [insertGroup, lookupG, h, h2]
  | cons e m ih =>
    intro v p w
    obtain ⟨k, ps⟩ := e
    rw [insertGroup]
    by_cases hk : k = v
    · subst hk
      rw [if_pos rfl]
      by_cases hw : w = k
      · subst hw
        simp [lookupG_cons]
      · have h2 : ¬ k = w := fun hh => hw hh.symm
        simp [lookupG_cons, h2, hw]
    · rw [if_neg hk]
      by_cases hkw : k = w
      · subst hkw
        simp [lookupG_cons, hk]
      · simp [lookupG_cons, hkw, hk, ih]

/-- Keys after one grouping insertion: unchanged if present, appended if
new. -/
theorem insertGroup_keys :
    ∀ (m : List (Nat × List Nat)) (v p),
      keysOf (insertGroup m v p) =
        if v ∈ keysOf m then keysOf m else keysOf m ++ [v] := by
  intro m
  induction m with
  | nil => intro v p; simp [insertGroup, keysOf]
  | cons e m ih =>
    intro v p
    obtain ⟨k, ps⟩ := e
    rw [insertGroup]
    by_cases hk : k = v
    · subst hk
      rw [if_pos rfl, keysOf_cons, keysOf_cons]
      rw [if_pos (by simp [keysOf_cons])]
    · rw [if_neg hk, keysOf_cons, keysOf_cons, ih]
      have hmemiff : v ∈ (k :: keysOf m) ↔ v ∈ keysOf m := by
        simp only [List.mem_cons]
        constructor
        · rintro (rfl | h)
          · exact absurd rfl hk
          · exact h
        · exact Or.inr
      by_cases hv : v ∈ keysOf m
      · rw [if_pos hv, if_pos (hmemiff.mpr hv)]
      · rw [if_neg hv, if_neg (fun h => hv (hmemiff.mp h))]
        simp

/-- Characterization of lookup after folding grouping insertions over a
pair list, in terms of the initial accumulator and the processed pairs. -/
theorem foldGroup_lookup :
    ∀ (ps : List (Nat × Nat)) (acc : List (Nat × List Nat)) (w : Nat),
      lookupG (ps.foldl (fun m vp => insertGroup m vp.1 vp.2) acc) w =
        if (lookupG acc w).isSome ∨ w ∈ keysOf ps then
          some (((lookupG acc w).getD []) ++
            ((ps.filter fun q => q.1 = w).map Prod.snd))
        else none := by
  intro ps
  induction ps with
  | nil =>
    intro acc w
    cases hl : lookupG acc w <;> simp [keysOf, hl]
  | cons q ps ih =>
    intro acc w
    rw [List.foldl_cons, ih]
    rw [insertGroup_lookup]
    by_cases hwq : w = q.1
    · subst hwq
      simp only [if_pos rfl, Option.isSome_some, true_or, Option.getD_some]
      have hkey : q.1 ∈ keysOf (q :: ps) := by simp [keysOf]
      rw [if_pos (Or.inr hkey)]
      have hfilter : ((q :: ps).filter fun r => r.1 = q.1) =
          q :: (ps.filter fun r => r.1 = q.1) := by
        simp [List.filter_cons]
      rw [hfilter]
      simp [List.append_assoc]
    · have h2 : ¬ q.1 = w := fun hh => hwq hh.symm
      simp only [hwq, if_neg, not_false_iff]
      have hkeys : (w ∈ keysOf (q :: ps)) ↔ w ∈ keysOf ps := by
        simp only [keysOf, List.map_cons, List.mem_cons]
        constructor
        · rintro (h | h)
          · exact absurd h hwq
          · exact h
        · exact Or.inr
      have hfilter : ((q :: ps).filter fun r => r.1 = w) =
          ps.filter fun r => r.1 = w := by
        simp [List.filter_cons, h2]
      rw [hfilter]
      by_cases hc : (lookupG acc w).isSome ∨ w ∈ keysOf ps
      · rw [if_pos hc, if_pos]
        rcases hc with h | h
        · exact Or.inl h
        · exact Or.inr (hkeys.mpr h)
      · rw [if_neg hc, if_neg]
        intro hcon
        rcases hcon with h | h
        · exact hc (Or.inl h)
        · exact hc (Or.inr (hkeys.mp h))

/-- Lookup in the grouping of a pair list: the powers recorded under a key
are exactly the powers of the pairs with that key, in order. -/
theorem groupPows_lookup (ps : List (Nat × Nat)) (w : Nat) :
    lookupG (groupPows ps) w =
      if w ∈ keysOf ps then
        some ((ps.filter fun q => q.1 = w).map Prod.snd)
      else none := by
  rw [groupPows, foldGroup_lookup]
  simp [lookupG]

/-- The grouped keys are distinct. -/
theorem groupPows_keys_nodup (ps : List (Nat × Nat)) :
    (keysOf (groupPows ps)).Nodup := by
  rw [groupPows]
  suffices h : ∀ (l : List (Nat × Nat)) (acc : List (Nat × List Nat)),
      (keysOf acc).Nodup →
      (keysOf (l.foldl (fun m vp => insertGroup m vp.1 vp.2) acc)).Nodup by
    exact h ps [] (by simp [keysOf])
  intro l
  induction l with
  | nil => intro acc h; exact h
  | cons q l ih =>
    intro acc h
    rw [List.foldl_cons]
    apply ih
    rw [insertGroup_keys]
    by_cases hq : q.1 ∈ keysOf acc
    · rwa [if_pos hq]
    · rw [if_neg hq]
      rw [List.nodup_append]
      exact ⟨h, List.nodup_singleton _, by simpa using hq⟩

/-- A key is present in an association list exactly when lookup finds
it. -/
theorem lookupG_isSome_iff :
    ∀ (m : List (Nat × List Nat)) (w : Nat),
      (lookupG m w).isSome ↔ w ∈ keysOf m := by
  intro m
  induction m with
  | nil => intro w; simp [lookupG, keysOf]
  | cons e m ih =>
    intro w
    obtain ⟨k, ps⟩ := e
    rw [lookupG_cons, keysOf_cons]
    by_cases hk : k = w
    · subst hk; simp
    · have h2 : ¬ w = k := fun hh => hk hh.symm
      simp [hk, h2, ih]

/-- With distinct keys, each entry is what lookup at its key returns. -/
theorem lookupG_of_mem_nodup :
    ∀ (m : List (Nat × List Nat)), (keysOf m).Nodup →
      ∀ e ∈ m, lookupG m e.1 = some e.2 := by
  intro m
  induction m with
  | nil => intro _ e h; simp at h
  | cons f m ih =>
    intro hnd e he
    obtain ⟨k, ps⟩ := f
    rw [keysOf_cons] at hnd
    have hk : k ∉ keysOf m := (List.nodup_cons.mp hnd).1
    rcases List.mem_cons.mp he with rfl | he2
    · simp [lookupG_cons]
    · have hmem : e.1 ∈ keysOf m := List.mem_map_of_mem Prod.fst he2
      have hne : ¬ k = e.1 := fun hh => hk (hh ▸ hmem)
      rw [lookupG_cons, if_neg hne]
      exact ih (List.nodup_cons.mp hnd).2 e he2

/-- Filtering for an absent key yields nothing. -/
theorem filter_key_nil :
    ∀ (A : List (Nat × Nat)) (v : Nat), v ∉ keysOf A →
      (A.filter fun q => q.1 = v) = [] := by
  intro A
  induction A with
  | nil => intro v _; rfl
  | cons q A ih =>
    intro v hv
    rw [keysOf_cons] at hv
    simp only [List.mem_cons, not_or] at hv
    rw [List.filter_cons]
    have : ¬ q.1 = v := fun hh => hv.1 hh.symm
    simp only [this, decide_eq_true_eq, if_neg, not_false_iff]
    simpa using ih v hv.2

/-- With distinct keys at most one pair carries any given key. -/
theorem length_filter_key_le_one :
    ∀ (A : List (Nat × Nat)), (keysOf A).Nodup → ∀ v,
      (A.filter fun q => q.1 = v).length ≤ 1 := by
  intro A
  induction A with
  | nil => intro _ v; simp
  | cons q A ih =>
    intro hnd v
    rw [keysOf_cons] at hnd
    obtain ⟨hq, hnd2⟩ := List.nodup_cons.mp hnd
    rw [List.filter_cons]
    by_cases hqv : q.1 = v
    · subst hqv
      have : (A.filter fun r => r.1 = q.1) = [] := by
        apply filter_key_nil
        exact hq
      simp [this]
    · simp only [hqv, decide_eq_true_eq, if_neg, not_false_iff]
      exact ih hnd2 v

/-- The gcd and lcm exponent rules are complementary on groups of one or
two exponents: they sum to the total multiplicity. -/
theorem gcdExp_add_lcmExp :
    ∀ ps : List Nat, ps ≠ [] → ps.length ≤ 2 →
      gcdExp ps + lcmExp ps = ps.sum := by
  intro ps h1 h2
  match ps with
  | [x] => simp [gcdExp, lcmExp, listMin, listMax]
  | [x, y] =>
    have h3 : gcdExp [x, y] = min x y := rfl
    have h4 : lcmExp [x, y] = max x y := rfl
    rw [h3, h4]
    simp only [List.sum_cons, List.sum_nil]
    omega
  | [] => exact absurd rfl h1
  | x :: y :: z :: t => simp at h2

/-- A fold of multiplications starting from an initial value is that value
times the product of the mapped list. -/
theorem foldl_mul_eq_prod {α : Type} (f : α → Nat) :
    ∀ (l : List α) (init : Nat),
      l.foldl (fun g e => g * f e) init = init * (l.map f).prod := by
  intro l
  induction l with
  | nil => intro init; simp
  | cons x l ih =>
    intro init
    rw [List.foldl_cons, ih]
    simp [Nat.mul_assoc]

/-- Products of two mapped lists merge into the product of the pointwise
products. -/
theorem prod_map_mul {α : Type} (f g : α → Nat) :
    ∀ l : List α, (l.map f).prod * (l.map g).prod =
      (l.map fun x => f x * g x).prod := by
  intro l
  induction l with
  | nil => simp
  | cons x l ih =>
    simp only [List.map_cons, List.prod_cons]
    rw [← ih]
    ring

/-- A power of a sum of exponents is the product of the powers. -/
theorem pow_list_sum (v : Nat) :
    ∀ l : List Nat, v ^ l.sum = (l.map fun p => v ^ p).prod := by
  intro l
  induction l with
  | nil => simp
  | cons x l ih => simp [pow_add, ih]

/-- The gcd/lcm product identity: for positive `a` and `b` both functions
succeed and their results multiply to `a * b`. -/
theorem gcd_mul_lcm_aux (a b : Nat) (ha : 0 < a) (hb : 0 < b) :
    ∃ g l, Chalk.gcd a b = some g ∧ Chalk.lcm a b = some l ∧ g * l = a * b := by
  obtain ⟨fa, hfa, hpa⟩ := primeFactorize_spec a ha
  obtain ⟨fb, hfb, hpb⟩ := primeFactorize_spec b hb
  set A := generatePowers fa with hA
  set B := generatePowers fb with hB
  set P := A ++ B with hP
  set G := groupPows P with hG
  refine ⟨G.foldl (fun g e => g * e.1 ^ gcdExp e.2) 1,
    G.foldl (fun g e => g * e.1 ^ lcmExp e.2) 1, ?_, ?_, ?_⟩
  · simp [Chalk.gcd, hfa, hfb, hG, hP, hA, hB]
  · simp [Chalk.lcm, hfa, hfb, hG, hP, hA, hB]
  · -- per-entry characterizations
    have hknd : (keysOf G).Nodup := groupPows_keys_nodup P
    have hent : ∀ e ∈ G, e.2 = (P.filter fun q => q.1 = e.1).map Prod.snd := by
      intro e he
      have hl := lookupG_of_mem_nodup G hknd e he
      rw [hG, groupPows_lookup] at hl
      by_cases hc : e.1 ∈ keysOf P
      · rw [if_pos hc] at hl
        exact (Option.some.inj hl).symm
      · rw [if_neg hc] at hl; cases hl
    have hne : ∀ e ∈ G, e.2 ≠ [] := by
      intro e he
      have hl := lookupG_of_mem_nodup G hknd e he
      rw [hG, groupPows_lookup] at hl
      by_cases hc : e.1 ∈ keysOf P
      · rw [if_pos hc] at hl
        obtain ⟨q, hqP, hq1⟩ := List.mem_map.mp hc
        intro hnil
        rw [hnil] at hl
        have : q ∈ P.filter fun r => r.1 = e.1 :=
          List.mem_filter.mpr ⟨hqP, by simp [hq1]⟩
        have hm := List.mem_map_of_mem Prod.snd this
        rw [Option.some.inj hl] at hm
        simp at hm
      · rw [if_neg hc] at hl; cases hl
    have hlen : ∀ e ∈ G, e.2.length ≤ 2 := by
      intro e he
      rw [hent e he, List.length_map, hP, List.filter_append,
        List.length_append]
      have la := length_filter_key_le_one A (gpAux_keys_nodup fa []).1 e.1
      have lb := length_filter_key_le_one B (gpAux_keys_nodup fb []).1 e.1
      omega
    have hcov : ∀ q ∈ P, q.1 ∈ keysOf G := by
      intro q hq
      have hkP : q.1 ∈ keysOf P := List.mem_map_of_mem Prod.fst hq
      have : (lookupG G q.1).isSome := by
        rw [hG, groupPows_lookup, if_pos hkP]
        rfl
      exact (lookupG_isSome_iff G q.1).mp this
    -- fold to products
    rw [foldl_mul_eq_prod, foldl_mul_eq_prod, Nat.one_mul, Nat.one_mul]
    rw [prod_map_mul]
    -- pointwise: gcd exponent + lcm exponent = sum of group
    have hpt : (G.map fun e => e.1 ^ gcdExp e.2 * e.1 ^ lcmExp e.2) =
        G.map fun e => e.1 ^ e.2.sum := by
      apply List.map_congr_left
      intro e he
      rw [← pow_add]
      congr 1
      exact gcdExp_add_lcmExp e.2 (hne e he) (hlen e he)
    rw [hpt]
    -- per-entry block products
    have hblock : (G.map fun e => e.1 ^ e.2.sum) =
        G.map fun e => ((P.filter fun q => q.1 = e.1).map
          fun q => q.1 ^ q.2).prod := by
      apply List.map_congr_left
      intro e he
      rw [hent e he, pow_list_sum, List.map_map]
      congr 1
      apply List.map_congr_left
      intro q hq
      have : q.1 = e.1 := by simpa using (List.mem_filter.mp hq).2
      simp [Function.comp, this]
    rw [hblock]
    -- express as a map over the keys, then as a flat map over the keys
    have hkeymap : (G.map fun e => ((P.filter fun q => q.1 = e.1).map
        fun q => q.1 ^ q.2).prod) =
        (keysOf G).map fun v => ((P.filter fun q => q.1 = v).map
          fun q => q.1 ^ q.2).prod := by
      rw [keysOf, List.map_map]
      rfl
    rw [hkeymap, ← prod_flatMap]
    have hmapflat : ((keysOf G).flatMap fun v => (P.filter fun q => q.1 = v).map
        fun q => q.1 ^ q.2) =
        ((keysOf G).flatMap fun v => P.filter fun q => q.1 = v).map
          fun q => q.1 ^ q.2 := by
      rw [List.map_flatMap]
    rw [hmapflat]
    have hperm := flatMap_filter_perm Prod.fst (keysOf G) P hknd hcov
    rw [(hperm.map fun q => q.1 ^ q.2).prod_eq]
    -- split the power product of the appended pair lists
    rw [hP, List.map_append, List.prod_append]
    have hAprod : (A.map fun q => q.1 ^ q.2).prod = fa.prod :=
      pprod_generatePowers fa
    have hBprod : (B.map fun q => q.1 ^ q.2).prod = fb.prod :=
      pprod_generatePowers fb
    rw [hAprod, hBprod, hpa, hpb]

/-- A successful context lookup certifies membership. -/
theorem ctxGet_mem : ∀ (ctx : Ctx) (v : Char) (e : Expr),
    ctxGet ctx v = some e → (v, e) ∈ ctx := by
  intro ctx
  induction ctx with
  | nil => intro v e h; simp [ctxGet] at h
  | cons p ctx ih =>
    intro v e h
    obtain ⟨k, b⟩ := p
    rw [ctxGet] at h
    by_cases hk : k = v
    · subst hk
      rw [if_pos rfl] at h
      cases h
      exact List.mem_cons_self _ _
    · rw [if_neg hk] at h
      exact List.mem_cons_of_mem _ (ih v e h)

/-- Evaluation of an assignment-free expression in a state whose bindings
are assignment-free never changes the state, whether it succeeds or fails
with a `RuntimeError`. -/
theorem execF_noAssign_ctx :
    ∀ (f : Nat) (ast : Expr) (ctx : Ctx) (r : Except RuntimeError EvalResult)
      (ctx2 : Ctx), noAssignB ast = true → ctxNoAssign ctx →
      execF f ctx ast = .done r ctx2 → ctx2 = ctx := by
  intro f
  induction f with
  | zero => intro ast ctx r ctx2 _ _ h; simp [execF] at h
  | succ f ih =>
    intro ast ctx r ctx2 hna hctx h
    cases ast with
    | Variable v =>
      rw [execF] at h
      cases hg : ctxGet ctx v with
      | none => rw [hg] at h; cases h; rfl
      | some e =>
        rw [hg] at h
        exact ih e ctx r ctx2 (hctx (v, e) (ctxGet_mem ctx v e hg)) hctx h
    | Assignment v node => simp [noAssignB] at hna
    | Integer i => rw [execF] at h; cases h; rfl
    | Real q => rw [execF] at h; cases h; rfl
    | Bool b => rw [execF] at h; cases h; rfl
    | Paren inner =>
      rw [execF] at h
      exact ih inner ctx r ctx2 (by simpa [noAssignB] using hna) hctx h
    | BinaryOp op l r1 =>
      rw [noAssignB, Bool.and_eq_true] at hna
      cases hL : execF f ctx l with
      | nofuel => rw [execF] at h; simp only [hL] at h; cases h
      | panic => rw [execF] at h; simp only [hL] at h; cases h
      | done rl ctx1 =>
        have hctx1 : ctx1 = ctx := ih l ctx rl ctx1 hna.1 hctx hL
        cases rl with
        | error e =>
          rw [execF] at h; simp only [hL] at h
          cases h; exact hctx1
        | ok lv =>
          cases hR : execF f ctx1 r1 with
          | nofuel => rw [execF] at h; simp only [hL, hR] at h; cases h
          | panic => rw [execF] at h; simp only [hL, hR] at h; cases h
          | done rr ctx2h =>
            have hctx2 : ctx2h = ctx1 := by
              apply ih r1 ctx1 rr ctx2h hna.2 _ hR
              rw [hctx1]; exact hctx
            cases rr with
            | error e =>
              rw [execF] at h; simp only [hL, hR] at h
              cases h; rw [hctx2]; exact hctx1
            | ok rv =>
              cases hE : BinaryOperator.eval op lv rv with
              | none => rw [execF] at h; simp only [hL, hR, hE] at h; cases h
              | some res =>
                rw [execF] at h; simp only [hL, hR, hE] at h
                cases h; rw [hctx2]; exact hctx1
    | UnaryOp op node =>
      cases hN : execF f ctx node with
      | nofuel => rw [execF] at h; simp only [hN] at h; cases h
      | panic => rw [execF] at h; simp only [hN] at h; cases h
      | done rn ctx1 =>
        have hctx1 : ctx1 = ctx :=
          ih node ctx rn ctx1 (by simpa [noAssignB] using hna) hctx hN
        cases rn with
        | error e =>
          rw [execF] at h; simp only [hN] at h
          cases h; exact hctx1
        | ok v =>
          rw [execF] at h; simp only [hN] at h
          cases h; exact hctx1
    | AbsVal inner =>
      cases hN : execF f ctx inner with
      | nofuel => rw [execF] at h; simp only [hN] at h; cases h
      | panic => rw [execF] at h; simp only [hN] at h; cases h
      | done rn ctx1 =>
        have hctx1 : ctx1 = ctx :=
          ih inner ctx rn ctx1 (by simpa [noAssignB] using hna) hctx hN
        cases rn with
        | error e =>
          rw [execF] at h; simp only [hN] at h
          cases h; exact hctx1
        | ok v =>
          cases hF : EvalResult.floatc v with
          | error e =>
            rw [execF] at h; simp only [hN, hF] at h
            cases h; exact hctx1
          | ok q =>
            rw [execF] at h; simp only [hN, hF] at h
            cases h; exact hctx1

/-- A variable bound to itself makes `exec` recurse forever. -/
theorem execF_cyclic_var (c : Char) :
    ∀ (f : Nat) (ctx : Ctx), ctxGet ctx c = some (.Variable c) →
      execF f ctx (.Variable c) = .nofuel := by
  intro f
  induction f with
  | zero => intro ctx _; rfl
  | succ f ih =>
    intro ctx h
    rw [execF, h]
    exact ih ctx h

/-- Executing the assignment of a variable to itself never terminates:
the right-hand side is stored first, so its evaluation immediately chases
the cyclic binding. -/
theorem assign_self_diverges : divergesOn [] (.Assignment 'x' (.Variable 'x')) := by
  intro f
  cases f with
  | zero => rfl
  | succ f =>
    rw [execF]
    exact execF_cyclic_var 'x' f [('x', .Variable 'x')] rfl

/-- Every AST has positive size. -/
theorem sizeE_pos : ∀ ast : Expr, 1 ≤ sizeE ast := by
  intro ast
  cases ast <;> simp [sizeE] <;> omega

/-- On a variable-free expression, `exec` never exhausts fuel at least its
size: it returns a result, a `RuntimeError`, or the gcd/lcm zero-operand
panic. -/
theorem execF_noVar_total :
    ∀ (f : Nat) (ast : Expr) (ctx : Ctx), noVarB ast = true →
      sizeE ast ≤ f → execF f ctx ast ≠ .nofuel := by
  intro f
  induction f with
  | zero =>
    intro ast ctx _ hs
    have := sizeE_pos ast
    omega
  | succ f ih =>
    intro ast ctx hnv hs
    cases ast with
    | Variable v => simp [noVarB] at hnv
    | Assignment v node =>
      rw [execF]
      exact ih node (ctxInsert ctx v node) (by simpa [noVarB] using hnv)
        (by rw [sizeE] at hs; omega)
    | Integer i => rw [execF]; exact fun h => by cases h
    | Real q => rw [execF]; exact fun h => by cases h
    | Bool b => rw [execF]; exact fun h => by cases h
    | Paren inner =>
      rw [execF]
      exact ih inner ctx (by simpa [noVarB] using hnv)
        (by rw [sizeE] at hs; omega)
    | BinaryOp op l r =>
      rw [noVarB, Bool.and_eq_true] at hnv
      rw [sizeE] at hs
      cases hL : execF f ctx l with
      | nofuel => exact absurd hL (ih l ctx hnv.1 (by omega))
      | panic => rw [execF]; simp only [hL]; exact fun h => by cases h
      | done rl ctx1 =>
        cases rl with
        | error e => rw [execF]; simp only [hL]; exact fun h => by cases h
        | ok lv =>
          cases hR : execF f ctx1 r with
          | nofuel => exact absurd hR (ih r ctx1 hnv.2 (by omega))
          | panic => rw [execF]; simp only [hL, hR]; exact fun h => by cases h
          | done rr ctx2 =>
            cases rr with
            | error e =>
              rw [execF]; simp only [hL, hR]; exact fun h => by cases h
            | ok rv =>
              cases hE : BinaryOperator.eval op lv rv with
              | none =>
                rw [execF]; simp only [hL, hR, hE]; exact fun h => by cases h
              | some res =>
                rw [execF]; simp only [hL, hR, hE]; exact fun h => by cases h
    | UnaryOp op node =>
      rw [sizeE] at hs
      cases hN : execF f ctx node with
      | nofuel => exact absurd hN (ih node ctx (by simpa [noVarB] using hnv) (by omega))
      | panic => rw [execF]; simp only [hN]; exact fun h => by cases h
      | done rn ctx1 =>
        cases rn with
        | error e => rw [execF]; simp only [hN]; exact fun h => by cases h
        | ok v => rw [execF]; simp only [hN]; exact fun h => by cases h
    | AbsVal inner =>
      rw [sizeE] at hs
      cases hN : execF f ctx inner with
      | nofuel => exact absurd hN (ih inner ctx (by simpa [noVarB] using hnv) (by omega))
      | panic => rw [execF]; simp only [hN]; exact fun h => by cases h
      | done rn ctx1 =>
        cases rn with
        | error e => rw [execF]; simp only [hN]; exact fun h => by cases h
        | ok v =>
          cases hF : EvalResult.floatc v with
          | error e => rw [execF]; simp only [hN, hF]; exact fun h => by cases h
          | ok q => rw [execF]; simp only [hN, hF]; exact fun h => by cases h

/-! ## Claim theorems -/

/-- C1 counterexample: the claim that a failing `exec` leaves the
binding state unchanged is false.  Executing the assignment of unbound
variable `y` to `x` in the empty state fails with a `RuntimeError`, yet
afterwards `x` is bound to the unevaluated right-hand side. -/
theorem C1_atomic_state_counterexample :
    execF 5 [] (.Assignment 'x' (.Variable 'y'))
      = .done (.error ⟨⟩) [('x', Expr.Variable 'y')] ∧
    ([('x', Expr.Variable 'y')] : Ctx) ≠ ([] : Ctx) := by
  constructor
  · decide
  · decide

/-- C1 amended: executing an assignment stores the unevaluated right-hand
expression under the variable name before evaluating it, so a failing
right-hand side leaves the new binding in place; `exec` mutates the
binding table only through assignment nodes — evaluating an
assignment-free expression in a state whose bindings are assignment-free
leaves the state unchanged whether it succeeds or fails. -/
theorem C1_atomic_state_amended :
    (∀ (f : Nat) (ctx : Ctx) (v : Char) (node : Expr),
      execF (f + 1) ctx (.Assignment v node) =
        execF f (ctxInsert ctx v node) node) ∧
    (∀ (f : Nat) (ast : Expr) (ctx : Ctx) (r : Except RuntimeError EvalResult)
      (ctx2 : Ctx), noAssignB ast = true → ctxNoAssign ctx →
      execF f ctx ast = .done r ctx2 → ctx2 = ctx) := by
  constructor
  · intro f ctx v node
    rfl
  · exact execF_noAssign_ctx

/-- C1 witness: the amended preservation statement applied to a literal in
the empty state. -/
theorem C1_atomic_state_witness :
    noAssignB (Expr.Integer 3) = true ∧ ([] : Ctx) = ([] : Ctx) :=
  ⟨by decide,
    C1_atomic_state_amended.2 2 (Expr.Integer 3) [] (.ok (.Integer 3)) []
      (by decide) (fun p hp => absurd hp (List.not_mem_nil p)) rfl⟩

/-- C2 counterexample: the claim that logical and/or fail whenever either
operand is numeric is false.  With a false left operand, the boolean
coercion of the numeric right operand is never demanded (Rust's lazy
conjunction), and the operation succeeds with `false`. -/
theorem C2_logical_numeric_counterexample :
    BinaryOperator.eval .And (.Bool false) (.Integer 5)
      = some (.ok (.Bool false)) ∧
    execF 10 [] (.BinaryOp .And (.Bool false) (.Integer 5))
      = .done (.ok (.Bool false)) [] := by
  constructor
  · decide
  · decide

/-- C2 amended: both operands of a logical and/or are always evaluated
(an error in the right operand propagates even when the left operand alone
decides the result), and the operation fails when the left operand is
numeric, or when the left operand does not decide the result and the right
operand is numeric; when the left operand decides the result (`false` for
and, `true` for or), the right operand's type is not checked.  The
specified example `5 && 1` does fail. -/
theorem C2_logical_numeric_amended :
    (∀ r : EvalResult, BinaryOperator.eval .And (.Bool false) r
      = some (.ok (.Bool false))) ∧
    (∀ r : EvalResult, BinaryOperator.eval .Or (.Bool true) r
      = some (.ok (.Bool true))) ∧
    (∀ r : EvalResult, BinaryOperator.eval .And (.Bool true) r
      = some ((r.boolc).map EvalResult.Bool)) ∧
    (∀ r : EvalResult, BinaryOperator.eval .Or (.Bool false) r
      = some ((r.boolc).map EvalResult.Bool)) ∧
    (∀ (i : Int) (r : EvalResult), BinaryOperator.eval .And (.Integer i) r
      = some (.error ⟨⟩)) ∧
    (∀ (q : QF) (r : EvalResult), BinaryOperator.eval .And (.Float q) r
      = some (.error ⟨⟩)) ∧
    (∀ (i : Int) (r : EvalResult), BinaryOperator.eval .Or (.Integer i) r
      = some (.error ⟨⟩)) ∧
    (∀ (q : QF) (r : EvalResult), BinaryOperator.eval .Or (.Float q) r
      = some (.error ⟨⟩)) ∧
    execF 10 [] (.BinaryOp .And (.Bool false) (.Variable 'y'))
      = .done (.error ⟨⟩) [] ∧
    tokenizeStr "5 && 1" = .ok [.Integer 5, .And, .Integer 1, .EOF] ∧
    parseToks [.Integer 5, .And, .Integer 1, .EOF]
      = .ok (.BinaryOp .And (.Integer 5) (.Integer 1)) ∧
    execF 10 [] (.BinaryOp .And (.Integer 5) (.Integer 1))
      = .done (.error ⟨⟩) [] := by
  refine ⟨fun r => rfl, fun r => rfl, fun r => rfl, fun r => rfl,
    fun i r => rfl, fun q r => rfl, fun i r => rfl, fun q r => rfl,
    by decide, by decide, by decide, by decide⟩

/-- C3 counterexample: the claim that every `exec` call terminates is
false.  Executing the assignment of `x` to itself (with `x` previously
unbound) stores the cyclic binding and then chases it forever: the model
exhausts every fuel bound. -/
theorem C3_termination_counterexample :
    divergesOn [] (.Assignment 'x' (.Variable 'x')) :=
  assign_self_diverges

/-- C3 amended: a call to `exec` on an expression containing no
variable-reference node terminates synchronously (a result, a
`RuntimeError`, or the gcd/lcm zero-operand panic), with fuel the size of
the expression; but evaluation of a variable can chase cyclic bindings
forever — executing the assignment of `x` to itself never returns. -/
theorem C3_termination_amended :
    (∀ (ast : Expr) (ctx : Ctx), noVarB ast = true →
      execF (sizeE ast) ctx ast ≠ ERes.nofuel) ∧
    divergesOn [] (.Assignment 'x' (.Variable 'x')) := by
  constructor
  · intro ast ctx h
    exact execF_noVar_total (sizeE ast) ast ctx h (le_refl _)
  · exact assign_self_diverges

/-- C3 witness: the amended termination statement applied at an integer
literal. -/
theorem C3_termination_witness :
    noVarB (Expr.Integer 3) = true ∧
    execF (sizeE (Expr.Integer 3)) [] (Expr.Integer 3) ≠ ERes.nofuel :=
  ⟨by decide, C3_termination_amended.1 (Expr.Integer 3) [] (by decide)⟩

/-- C4 counterexample: the claim that `dependsOn` descends into the
right-hand expression of an assignment node is false.  The assignment of
`x` to `y` reads `x` when executed (here failing on the unbound `x`), yet
`dependsOn` answers `false` for it, because assignment nodes fall into the
catch-all arm. -/
theorem C4_dependsOn_counterexample :
    dependsOnF 5 [] (.Assignment 'y' (.Variable 'x')) 'x' = some false ∧
    execF 5 [] (.Assignment 'y' (.Variable 'x'))
      = .done (.error ⟨⟩) [('y', Expr.Variable 'x')] := by
  constructor
  · decide
  · decide

/-- C4 amended: `dependsOn` descends into the children of parenthesis,
absolute-value, unary and binary nodes; a variable-reference node matches
the queried name directly or resolves the bound expression and recurses
into it; a query about an unbound variable never fails and answers `false`
unless the name matches; literal leaves and assignment nodes answer
`false` without descending (in particular the right-hand expression of an
assignment is not examined).  Dependencies are still found transitively
through the current bindings, as in the closing concrete example. -/
theorem C4_dependsOn_amended :
    (∀ (f : Nat) (ctx : Ctx) (v : Char) (node : Expr) (dep : Char),
      dependsOnF (f + 1) ctx (.Assignment v node) dep = some false) ∧
    (∀ (f : Nat) (ctx : Ctx) (v dep : Char),
      dependsOnF (f + 1) ctx (.Variable v) dep =
        if v = dep then some true
        else match ctxGet ctx v with
          | some sub => dependsOnF f ctx sub dep
          | none => some false) ∧
    (∀ (f : Nat) (ctx : Ctx) (op : BinaryOperator) (l r : Expr) (dep : Char),
      dependsOnF (f + 1) ctx (.BinaryOp op l r) dep =
        match dependsOnF f ctx l dep with
        | none => none
        | some true => some true
        | some false => dependsOnF f ctx r dep) ∧
    (∀ (f : Nat) (ctx : Ctx) (op : UnaryOperator) (node : Expr) (dep : Char),
      dependsOnF (f + 1) ctx (.UnaryOp op node) dep =
        dependsOnF f ctx node dep) ∧
    (∀ (f : Nat) (ctx : Ctx) (node : Expr) (dep : Char),
      dependsOnF (f + 1) ctx (.Paren node) dep = dependsOnF f ctx node dep) ∧
    (∀ (f : Nat) (ctx : Ctx) (node : Expr) (dep : Char),
      dependsOnF (f + 1) ctx (.AbsVal node) dep = dependsOnF f ctx node dep) ∧
    dependsOnF 10 [('x', .Integer 0), ('y', .BinaryOp .Add (.Variable 'x') (.Integer 5))]
      (.UnaryOp .Cos (.Variable 'y')) 'x' = some true ∧
    dependsOnF 10 [('x', .Integer 0), ('y', .BinaryOp .Add (.Variable 'x') (.Integer 5))]
      (.UnaryOp .Cos (.Variable 'y')) 'f' = some false := by
  refine ⟨fun f ctx v node dep => rfl, fun f ctx v dep => rfl,
    fun f ctx op l r dep => rfl, fun f ctx op node dep => rfl,
    fun f ctx node dep => rfl, fun f ctx node dep => rfl, by decide, by decide⟩

/-- C5: the tokenizer is not total — the claim is right about the intent
(the integer branch's unwrap carries a comment asserting it cannot fail)
but the code panics on an integer-literal overflow: parsing
`"2147483648"` (one past the largest `i32`) panics, while `"2147483647"`
tokenizes. -/
theorem C5_tokenize_overflow_bug :
    tokenizeStr "2147483648" = .panic ∧
    tokenizeStr "2147483647" = .ok [.Integer 2147483647, .EOF] := by
  constructor
  · decide
  · decide

/-- C6: the parser is not total over token sequences ending in the
end-of-input token — on the sequence containing only that token (produced
by tokenizing empty input) the assignment rule reads `tokens[current + 1]`
out of bounds, a panic, instead of signalling a `ParseError`. -/
theorem C6_parse_empty_bug :
    tokenizeStr "" = .ok [.EOF] ∧
    parseToks [.EOF] = .panic := by
  constructor
  · decide
  · decide

/-- C7: variables are late bound.  Executing the AST of `x = 4` and then
the AST of `x + 4` yields `8.0` (equal to `8` under the evaluator's own
result equality); after executing `x = 10`, re-executing the very same
unevaluated AST of `x + 4` yields `14.0`, equal to `14`. -/
theorem C7_late_binding :
    tokenizeStr "x = 4" = .ok [.Variable 'x', .Assign, .Integer 4, .EOF] ∧
    parseToks [.Variable 'x', .Assign, .Integer 4, .EOF]
      = .ok (.Assignment 'x' (.Integer 4)) ∧
    tokenizeStr "x + 4" = .ok [.Variable 'x', .Plus, .Integer 4, .EOF] ∧
    parseToks [.Variable 'x', .Plus, .Integer 4, .EOF]
      = .ok (.BinaryOp .Add (.Variable 'x') (.Integer 4)) ∧
    tokenizeStr "x = 10" = .ok [.Variable 'x', .Assign, .Integer 10, .EOF] ∧
    parseToks [.Variable 'x', .Assign, .Integer 10, .EOF]
      = .ok (.Assignment 'x' (.Integer 10)) ∧
    runSteps 100 []
      [.Assignment 'x' (.Integer 4),
       .BinaryOp .Add (.Variable 'x') (.Integer 4),
       .Assignment 'x' (.Integer 10),
       .BinaryOp .Add (.Variable 'x') (.Integer 4)] =
      [.done (.ok (.Integer 4)) [('x', .Integer 4)],
       .done (.ok (.Float ⟨8, 1⟩)) [('x', .Integer 4)],
       .done (.ok (.Integer 10)) [('x', .Integer 10)],
       .done (.ok (.Float ⟨14, 1⟩)) [('x', .Integer 10)]] ∧
    EvalResult.beq (.Float ⟨8, 1⟩) (.Integer 8) = true ∧
    EvalResult.beq (.Float ⟨14, 1⟩) (.Integer 14) = true := by
  refine ⟨by decide, by decide, by decide, by decide, by decide, by decide,
    by decide, by decide, by decide⟩

/-- C8: for all positive `a` and `b` the factorization-based gcd and lcm
succeed and multiply to `a * b`; concretely gcd(15, 20) = 5 and
lcm(12, 15) = 60. -/
theorem C8_gcd_lcm_identity :
    (∀ a b : Nat, 0 < a → 0 < b →
      ∃ g l, Chalk.gcd a b = some g ∧ Chalk.lcm a b = some l ∧
        g * l = a * b) ∧
    Chalk.gcd 15 20 = some 5 ∧
    Chalk.lcm 12 15 = some 60 := by
  refine ⟨gcd_mul_lcm_aux, by decide, by decide⟩

/-- C8 witness: the identity applied at the concrete pair (15, 20). -/
theorem C8_gcd_lcm_identity_witness :
    (0 < 15 ∧ 0 < 20) ∧
    ∃ g l, Chalk.gcd 15 20 = some g ∧ Chalk.lcm 15 20 = some l ∧
      g * l = 15 * 20 :=
  ⟨⟨by decide, by decide⟩,
    C8_gcd_lcm_identity.1 15 20 (by decide) (by decide)⟩

/-- C9: the power operator is left-associative — `2^3^2` tokenizes, parses
as `(2^3)^2`, and evaluates to `64.0`, which is not `512.0`. -/
theorem C9_power_left_assoc :
    tokenizeStr "2^3^2" = .ok [.Integer 2, .Caret, .Integer 3, .Caret,
      .Integer 2, .EOF] ∧
    parseToks [.Integer 2, .Caret, .Integer 3, .Caret, .Integer 2, .EOF]
      = .ok (.BinaryOp .Pow (.BinaryOp .Pow (.Integer 2) (.Integer 3))
          (.Integer 2)) ∧
    execF 100 [] (.BinaryOp .Pow (.BinaryOp .Pow (.Integer 2) (.Integer 3))
        (.Integer 2))
      = .done (.ok (.Float ⟨64, 1⟩)) [] ∧
    EvalResult.beq (.Float ⟨64, 1⟩) (.Float ⟨512, 1⟩) = false := by
  refine ⟨by decide, by decide, by decide, by decide⟩

/-- C10: the equal and not-equal operators always succeed — they return
the boolean of the evaluator's own result equality and its exact negation
respectively — and that equality answers `false` (not an error) when a
boolean meets a numeric value. -/
theorem C10_eq_neq_total :
    (∀ l r : EvalResult, BinaryOperator.eval .Eq l r
      = some (.ok (.Bool (l.beq r)))) ∧
    (∀ l r : EvalResult, BinaryOperator.eval .NEq l r
      = some (.ok (.Bool (!(l.beq r))))) ∧
    (∀ (b : Bool) (i : Int), EvalResult.beq (.Bool b) (.Integer i) = false) ∧
    (∀ (b : Bool) (q : QF), EvalResult.beq (.Bool b) (.Float q) = false) ∧
    (∀ (b : Bool) (i : Int), EvalResult.beq (.Integer i) (.Bool b) = false) ∧
    (∀ (b : Bool) (q : QF), EvalResult.beq (.Float q) (.Bool b) = false) := by
  refine ⟨fun l r => rfl, fun l r => rfl, fun b i => rfl, fun b q => rfl,
    fun b i => rfl, fun b q => rfl⟩

end Chalk
